import Mathlib

/-!
# A shallow embedding of the BGW MPC implementation

This file embeds the Rust sources of the repository (src/sharing.rs,
src/circuit.rs, src/party.rs, src/message.rs) as Lean definitions and
proves properties of them.

Conventions of the embedding:
* The scalar field `ark_bn254::Fr` is a prime field; the code uses only the
  abstract field operations (add, sub, mul, inverse, sampling, casts from
  small integers), so the embedding is stated over an arbitrary field `F`,
  instantiated at `ZMod q` (`q` prime) where the size of the field matters
  (distinctness of the evaluation points `1, …, n`, which in the Rust code
  always holds because `n : usize < 2^64 < p`).
* Randomness (`Fr::rand`) is modelled by an explicit stream `rand : ℕ → F`
  of sampled values; the code draws exactly `t` values.
* The `panic!` in `shamir_reconstruct` on a zero Lagrange denominator is
  modelled by `Except.error SharingError.DuplicateX`.
* Network receive loops are modelled as functions over the finite list of
  messages that arrive in the party's inbox, in arrival order; a timeout
  (or closed channel) firing while the loop is still waiting is modelled
  by the message list running out.
-/

namespace BGW

/-- A share in the Shamir secret sharing scheme: a point `(x, f x)` on the
polynomial (struct `Share` of src/sharing.rs). -/
structure Share (F : Type) where
  x : F
  value : F
deriving DecidableEq, Repr

/-- The distinct error raised by `shamir_reconstruct` when two shares carry
the same x-coordinate (the `panic!("Division by zero: Duplicate x values in
shares!")` of src/sharing.rs). -/
inductive SharingError where
  | DuplicateX
deriving DecidableEq, Repr

/-- Horner-free polynomial evaluation `Σ_j coef_j · x^j`, the inner loop of
`shamir_share` (src/sharing.rs lines 41-44). -/
def evalPoly {F : Type} [Field F] (coefficients : List F) (x : F) : F :=
  ((List.range coefficients.length).map (fun j => coefficients.getD j 0 * x ^ j)).sum

/-- The coefficient list built by `shamir_share` (src/sharing.rs lines
26-32): the constant term is the secret, followed by exactly `t` sampled
coefficients. -/
def shamirCoefficients {F : Type} [Field F] (secret : F) (t : ℕ) (rand : ℕ → F) : List F :=
  secret :: (List.range t).map rand

/-- Evaluation of the polynomial with coefficient list `c` at the points
`x = 1, …, n` (src/sharing.rs lines 34-48). -/
def sharesOfPoly {F : Type} [Field F] (c : List F) (n : ℕ) : List (Share F) :=
  (List.range n).map (fun i =>
    { x := ((i + 1 : ℕ) : F), value := evalPoly c ((i + 1 : ℕ) : F) })

/-- `shamir_share` (src/sharing.rs lines 20-49): build the random degree-t
polynomial with constant term `secret` and evaluate it at `x = 1, …, n`. -/
def shamir_share {F : Type} [Field F] (secret : F) (t n : ℕ) (rand : ℕ → F) : List (Share F) :=
  sharesOfPoly (shamirCoefficients secret t rand) n

/-- The numerator `Π_{j ≠ i} x_j` accumulated by the inner loop of
`shamir_reconstruct` (src/sharing.rs lines 63-68). -/
def lagrangeNum {F : Type} [Field F] (shares : List (Share F)) (i : ℕ) : F :=
  (((List.range shares.length).filter (fun j => j ≠ i)).map
    (fun j => (shares.getD j ⟨0, 0⟩).x)).prod

/-- The denominator `Π_{j ≠ i} (x_j - x_i)` accumulated by the inner loop of
`shamir_reconstruct` (src/sharing.rs lines 63-68). -/
def lagrangeDen {F : Type} [Field F] (shares : List (Share F)) (i : ℕ) : F :=
  (((List.range shares.length).filter (fun j => j ≠ i)).map
    (fun j => (shares.getD j ⟨0, 0⟩).x - (shares.getD i ⟨0, 0⟩).x)).prod

/-- The outer loop of `shamir_reconstruct` (src/sharing.rs lines 55-77),
parameterised by the list of indices still to process: each iteration checks
the denominator for zero (duplicate x) and otherwise adds
`y_i · (num_i · den_i⁻¹)` to the accumulated secret. -/
def reconstructSum {F : Type} [Field F] [DecidableEq F] (shares : List (Share F)) :
    List ℕ → Except SharingError F
  | [] => .ok 0
  | i :: rest =>
    let si := shares.getD i ⟨0, 0⟩
    let den := lagrangeDen shares i
    if den = 0 then .error .DuplicateX
    else (reconstructSum shares rest).map
      (fun acc => si.value * (lagrangeNum shares i * den⁻¹) + acc)

/-- `shamir_reconstruct` (src/sharing.rs lines 52-79): Lagrange interpolation
at `x = 0`; the panic on a duplicate x-coordinate is the `DuplicateX` error. -/
def shamir_reconstruct {F : Type} [Field F] [DecidableEq F] (shares : List (Share F)) :
    Except SharingError F :=
  reconstructSum shares (List.range shares.length)

/-- The share computed by `eval_add` (src/party.rs lines 115-124): same x,
sum of the two values.  The `assert_eq!` on the x-coordinates is a
precondition of the theorems below. -/
def eval_add {F : Type} [Field F] (s1 s2 : Share F) : Share F :=
  { x := s1.x, value := s1.value + s2.value }

/-- Pointwise sum of two share lists, as every party running `eval_add`
produces at matching positions. -/
def addShares {F : Type} [Field F] (l1 l2 : List (Share F)) : List (Share F) :=
  List.zipWith eval_add l1 l2

/-- Step 1 of `eval_mul` (src/party.rs lines 139-143): the local product
share `(x, y_a · y_b)`. -/
def local_product {F : Type} [Field F] (s1 s2 : Share F) : Share F :=
  { x := s1.x, value := s1.value * s2.value }

/-- The local product shares of all parties at a multiplication gate, given
the two input sharings. -/
def localProducts {F : Type} [Field F] (l1 l2 : List (Share F)) : List (Share F) :=
  List.zipWith local_product l1 l2

/-- The value reconstructed in step 4 of `eval_mul` (src/party.rs line 165).
The Rust code aborts on a reconstruction failure; the theorems below only
use this in the success case, where the default `0` is never returned. -/
def reconstructValue {F : Type} [Field F] [DecidableEq F] (shares : List (Share F)) : F :=
  match shamir_reconstruct shares with
  | .ok v => v
  | .error _ => 0

/-- Steps 4-5 of `eval_mul` (src/party.rs lines 164-169): a party opens the
product from its collected product shares and reshares it with a fresh
degree-t polynomial. -/
def reshareShares {F : Type} [Field F] [DecidableEq F] (t n : ℕ) (collected : List (Share F))
    (rand : ℕ → F) : List (Share F) :=
  shamir_share (reconstructValue collected) t n rand

/-- Step 8 of `eval_mul` (src/party.rs lines 213-224): party `q` sums the
`n` reshare values addressed to it (the entry at index `q` of every party's
resharing) and multiplies by `n⁻¹`; its final share sits at `x = q + 1`.
`sel p` is the list of product shares party `p` collected in step 3 and
`rand2 p` is party `p`'s resharing randomness. -/
def mulFinalShare {F : Type} [Field F] [DecidableEq F] (t n : ℕ) (sel : ℕ → List (Share F))
    (rand2 : ℕ → ℕ → F) (q : ℕ) : Share F :=
  { x := ((q + 1 : ℕ) : F),
    value := (((List.range n).map
        (fun p => ((reshareShares t n (sel p) (rand2 p)).getD q ⟨0, 0⟩).value)).sum)
      * ((n : ℕ) : F)⁻¹ }

/-- The `n` final shares stored for the multiplication gate's output wire,
one per party. -/
def mulFinalShares {F : Type} [Field F] [DecidableEq F] (t n : ℕ) (sel : ℕ → List (Share F))
    (rand2 : ℕ → ℕ → F) : List (Share F) :=
  (List.range n).map (mulFinalShare t n sel rand2)

/-- The message taxonomy (src/message.rs). -/
inductive Message (F : Type) where
  | InputShare (wire : ℕ) (s : Share F)
  | MulShare (wire : ℕ) (s : Share F)
  | OutputShare (wire : ℕ) (s : Share F)
  | Reshare (wire : ℕ) (s : Share F)
deriving DecidableEq, Repr

/-- The error with which a party aborts a multiplication gate when the
reshare-collection wait runs out (spec §7; the Rust code surfaces it as the
failed `assert_eq!` after the timed-out loop, src/party.rs lines 205-211). -/
inductive MulError where
  | ProtocolTimeout
deriving DecidableEq, Repr

/-- Step 3 of `eval_mul` (src/party.rs lines 154-162): receive messages until
at least `2t+1` product shares are collected.  A `MulShare` for the current
wire with a fresh x is appended; every other received message is dropped.
Returns the collected shares and the messages still unread in the inbox.
(The real loop blocks if the inbox runs dry; the `[]` case returns the
state reached at that point.) -/
def mulShareLoop {F : Type} [Field F] [DecidableEq F] (t out : ℕ)
    (shares : List (Share F)) : List (Message F) → List (Share F) × List (Message F)
  | [] => if 2 * t + 1 ≤ shares.length then (shares, []) else (shares, [])
  | m :: rest =>
    if 2 * t + 1 ≤ shares.length then (shares, m :: rest)
    else
      match m with
      | Message.MulShare wire s =>
        if wire = out ∧ ¬ (shares.any fun s0 => s0.x = s.x) then
          mulShareLoop t out (shares ++ [s]) rest
        else mulShareLoop t out shares rest
      | _ => mulShareLoop t out shares rest

/-- Step 7 of `eval_mul` (src/party.rs lines 181-203): receive messages until
`n` reshare values are collected.  A `Reshare` for the current wire at the
party's own x is appended unless an identical (x, value) pair is already
present; every other message is ignored.  The message list running out
models the 10-second timeout (or a closed channel) breaking the loop. -/
def reshareLoop {F : Type} [Field F] [DecidableEq F] (n out : ℕ) (myx : F)
    (final : List (Share F)) : List (Message F) → List (Share F) × List (Message F)
  | [] => (final, [])
  | m :: rest =>
    if n ≤ final.length then (final, m :: rest)
    else
      match m with
      | Message.Reshare wire s =>
        if wire = out ∧ s.x = myx then
          if ¬ (final.any fun s0 => s0.x = s.x ∧ s0.value = s.value) then
            reshareLoop n out myx (final ++ [s]) rest
          else reshareLoop n out myx final rest
        else reshareLoop n out myx final rest
      | _ => reshareLoop n out myx final rest

/-- Steps 7-8 of `eval_mul` wrapped with the post-loop `assert_eq!`
(src/party.rs lines 183-211): starting from the party's own reshare value,
collect until `n` values are present; if the loop broke early (timeout) the
assert fails and the multiplication aborts upward, modelled as
`ProtocolTimeout` per the spec's error taxonomy. -/
def collectReshares {F : Type} [Field F] [DecidableEq F] (n out : ℕ) (myx : F)
    (own : Share F) (msgs : List (Message F)) : Except MulError (List (Share F)) :=
  let final := (reshareLoop n out myx [own] msgs).1
  if final.length = n then .ok final else .error .ProtocolTimeout

/-- The messages the step-7 loop can actually collect: a `Reshare` for the
current wire carrying the party's own x-coordinate (the guard of the match
arm at src/party.rs lines 186-187).  Every other message is ignored by the
loop. -/
def isMyReshare {F : Type} [DecidableEq F] (out : ℕ) (myx : F) : Message F → Bool
  | Message.Reshare wire s => decide (wire = out ∧ s.x = myx)
  | _ => false

/-- Gate types of the arithmetic circuit (src/circuit.rs). -/
inductive GateType (F : Type) where
  | Input
  | Add
  | Mul
  | ConstMul (c : F)
  | Output
deriving Repr

/-- A gate of the arithmetic circuit (src/circuit.rs). -/
structure Gate (F : Type) where
  id : ℕ
  gate_type : GateType F
  left : Option ℕ
  right : Option ℕ
  owner : Option ℕ
deriving Repr

/-- The circuit: an ordered list of gates (src/circuit.rs). -/
structure Circuit (F : Type) where
  gates : List (Gate F)

/-- Placeholder gate used for out-of-range list access in the embedding
(never reached when indices are in bounds). -/
def defaultGate {F : Type} : Gate F :=
  { id := 0, gate_type := GateType.Input, left := none, right := none, owner := none }

/-- The left and right predecessor wire ids of gate `i`. -/
def predsOf {F : Type} (gates : List (Gate F)) (i : ℕ) : List ℕ :=
  (gates.getD i defaultGate).left.toList ++ (gates.getD i defaultGate).right.toList

/-- The recursive `dfs` of `Circuit::topological_order` (src/circuit.rs lines
59-74), with an explicit fuel parameter for the recursion depth (`none`
means the fuel ran out; the theorems below show the fuel supplied by
`topological_order` always suffices).  The state is the `visited` array and
the `order` list.  A visited lookup out of range yields `true` (in the Rust
code an out-of-range index would abort; the theorems only use in-range
indices). -/
def dfs {F : Type} (gates : List (Gate F)) :
    ℕ → ℕ → List Bool × List ℕ → Option (List Bool × List ℕ)
  | 0, _, _ => none
  | fuel + 1, gate_id, st =>
    if st.1.getD gate_id true = true then some st
    else
      let st1 : List Bool × List ℕ := (st.1.set gate_id true, st.2)
      let gate := gates.getD gate_id defaultGate
      match (match gate.left with
             | none => some st1
             | some l => dfs gates fuel l st1) with
      | none => none
      | some st2 =>
        match (match gate.right with
               | none => some st2
               | some rgt => dfs gates fuel rgt st2) with
        | none => none
        | some st3 => some (st3.1, st3.2 ++ [gate_id])

/-- The recursion of `dfs` into an optional child wire (the
`if let Some(l) = gate.left { dfs(l, …) }` pattern of src/circuit.rs). -/
def dfsChild {F : Type} (gates : List (Gate F)) (fuel : ℕ) (o : Option ℕ)
    (st : List Bool × List ℕ) : Option (List Bool × List ℕ) :=
  match o with
  | none => some st
  | some c => dfs gates fuel c st

/-- `Circuit::topological_order` (src/circuit.rs lines 55-81): run `dfs`
from every gate index in turn, starting from an all-false visited array.
Each top-level call gets fuel `gates.length + 1`, which the theorems show
is always enough, so `none` is never returned in the situations the claims
are about. -/
def topological_order {F : Type} (c : Circuit F) : Option (List ℕ) :=
  let n := c.gates.length
  ((List.range n).foldlM (fun st i => dfs c.gates (n + 1) i st)
    ((List.replicate n false, []) : List Bool × List ℕ)).map (fun st => st.2)

/-- All predecessors of every entry of `order` occur strictly before it:
the gate at position `k` of `order` has its `left`/`right` ids among the
first `k` entries. -/
def PredClosed {F : Type} (gates : List (Gate F)) (order : List ℕ) : Prop :=
  ∀ k (hk : k < order.length), ∀ p ∈ predsOf gates (order.get ⟨k, hk⟩),
    p ∈ order.take k

/-- The set of indices of `visited` still holding `false`. -/
def unvisited (visited : List Bool) : Finset ℕ :=
  (Finset.range visited.length).filter (fun i => visited.getD i true = false)

/-- Postcondition of one `dfs` call relating the state before and after: the
visited array keeps its length and only gains `true` entries, and the order
list is extended by exactly the batch of newly visited indices. -/
def DfsPost (st st' : List Bool × List ℕ) : Prop :=
  st'.1.length = st.1.length ∧
  (∀ i, st.1.getD i true = true → st'.1.getD i true = true) ∧
  ∃ new, st'.2 = st.2 ++ new ∧ new.Nodup ∧
    (∀ i ∈ new, i < st.1.length ∧ st.1.getD i true = false) ∧
    (∀ i, st'.1.getD i true = true ↔ (st.1.getD i true = true ∨ i ∈ new))

/-- Invariant of the states seen by a `dfs` call on `gid` when predecessor
ids are strictly smaller: below `gid`, visited and the order list agree, and
the order list is a duplicate-free, in-bounds, predecessor-closed prefix. -/
def DfsInv {F : Type} (gates : List (Gate F)) (gid : ℕ)
    (st : List Bool × List ℕ) : Prop :=
  st.1.length = gates.length ∧
  (∀ i, i < gid → (st.1.getD i true = true ↔ i ∈ st.2)) ∧
  st.2.Nodup ∧ (∀ i ∈ st.2, i < gates.length) ∧ PredClosed gates st.2

/-- The BN254 scalar field is a large prime field; for concrete witnesses the
embedding instantiates the field at the small prime 101. -/
instance fact_prime_101 : Fact (Nat.Prime 101) := ⟨by norm_num⟩

/-! ## Bridging lemmas between list folds and finite sums/products -/

theorem list_range_map_sum {M : Type} [AddCommMonoid M] (f : ℕ → M) (n : ℕ) :
    ((List.range n).map f).sum = ∑ i ∈ Finset.range n, f i := by
  induction n with
  | zero => simp
  | succ k ih => simp [List.range_succ, Finset.sum_range_succ, ih]

theorem list_range_map_prod {M : Type} [CommMonoid M] (f : ℕ → M) (n : ℕ) :
    ((List.range n).map f).prod = ∏ i ∈ Finset.range n, f i := by
  induction n with
  | zero => simp
  | succ k ih => simp [List.range_succ, Finset.prod_range_succ, ih]

theorem list_filter_map_prod {M : Type} [CommMonoid M] (p : ℕ → Bool) (f : ℕ → M) :
    ∀ l : List ℕ, ((l.filter p).map f).prod = (l.map (fun j => if p j then f j else 1)).prod
  | [] => rfl
  | a :: l => by
    cases hp : p a <;>
      simp [List.filter_cons, hp, list_filter_map_prod p f l]

/-- The numerator product as a product over the index set without `i`. -/
theorem lagrangeNum_eq {F : Type} [Field F] (L : List (Share F)) (i : ℕ) :
    lagrangeNum L i = ∏ j ∈ (Finset.range L.length).erase i, (L.getD j ⟨0, 0⟩).x := by
  rw [lagrangeNum, list_filter_map_prod, list_range_map_prod, Finset.erase_eq,
    ← Finset.prod_filter]
  apply Finset.prod_congr
  · ext j
    simp [Finset.mem_sdiff, and_comm]
  · intro j _
    rfl

/-- The denominator product as a product over the index set without `i`. -/
theorem lagrangeDen_eq {F : Type} [Field F] (L : List (Share F)) (i : ℕ) :
    lagrangeDen L i
      = ∏ j ∈ (Finset.range L.length).erase i,
          ((L.getD j ⟨0, 0⟩).x - (L.getD i ⟨0, 0⟩).x) := by
  rw [lagrangeDen, list_filter_map_prod, list_range_map_prod, Finset.erase_eq,
    ← Finset.prod_filter]
  apply Finset.prod_congr
  · ext j
    simp [Finset.mem_sdiff, and_comm]
  · intro j _
    rfl

/-! ## The closed form of `shamir_reconstruct` -/

/-- When no denominator vanishes, the outer loop returns the Lagrange sum. -/
theorem reconstructSum_ok {F : Type} [Field F] [DecidableEq F] (L : List (Share F)) :
    ∀ is : List ℕ, (∀ i ∈ is, lagrangeDen L i ≠ 0) →
      reconstructSum L is = .ok ((is.map (fun i =>
        (L.getD i ⟨0, 0⟩).value * (lagrangeNum L i * (lagrangeDen L i)⁻¹))).sum)
  | [], _ => rfl
  | i :: rest, h => by
    have hi : lagrangeDen L i ≠ 0 := h i (List.mem_cons_self i rest)
    have ih := reconstructSum_ok L rest (fun j hj => h j (List.mem_cons_of_mem i hj))
    simp only [reconstructSum, if_neg hi, ih, Except.map, List.map_cons, List.sum_cons]

/-- The outer loop fails exactly when some processed denominator vanishes. -/
theorem reconstructSum_error_iff {F : Type} [Field F] [DecidableEq F] (L : List (Share F))
    (is : List ℕ) :
    reconstructSum L is = .error .DuplicateX ↔ ∃ i ∈ is, lagrangeDen L i = 0 := by
  induction is with
  | nil => simp [reconstructSum]
  | cons i rest ih =>
    by_cases hi : lagrangeDen L i = 0
    · simp only [reconstructSum, if_pos hi, true_iff]
      exact ⟨i, List.mem_cons_self i rest, hi⟩
    · simp only [reconstructSum, if_neg hi]
      constructor
      · intro h
        cases hrest : reconstructSum L rest with
        | ok v => rw [hrest] at h; simp [Except.map] at h
        | error e =>
          cases e
          obtain ⟨j, hj, hjden⟩ := ih.mp hrest
          exact ⟨j, List.mem_cons_of_mem i hj, hjden⟩
      · rintro ⟨j, hj, hjden⟩
        rcases List.mem_cons.mp hj with hji | hj2
        · exact absurd (hji ▸ hjden) hi
        · rw [ih.mpr ⟨j, hj2, hjden⟩]
          rfl

/-- Failure of `reconstructSum` on `i :: rest` propagates; helper form of the
iff above specialised to `shamir_reconstruct`. -/
theorem shamir_reconstruct_error_iff {F : Type} [Field F] [DecidableEq F]
    (L : List (Share F)) :
    shamir_reconstruct L = .error .DuplicateX ↔
      ∃ i, i < L.length ∧ lagrangeDen L i = 0 := by
  rw [shamir_reconstruct, reconstructSum_error_iff]
  simp [List.mem_range]

/-- Closed form: with pairwise distinct denominators the reconstruction is the
Lagrange sum over all share indices. -/
theorem shamir_reconstruct_closed {F : Type} [Field F] [DecidableEq F]
    (L : List (Share F)) (h : ∀ i, i < L.length → lagrangeDen L i ≠ 0) :
    shamir_reconstruct L = .ok (∑ i ∈ Finset.range L.length,
      (L.getD i ⟨0, 0⟩).value * (lagrangeNum L i * (lagrangeDen L i)⁻¹)) := by
  rw [shamir_reconstruct,
    reconstructSum_ok L (List.range L.length) (fun i hi => h i (List.mem_range.mp hi)),
    list_range_map_sum]

/-! ## Distinct x-coordinates -/

/-- Pairwise-distinct x-coordinates, read off at list positions. -/
theorem pairwise_x_getD {F : Type} [Field F] (L : List (Share F))
    (h : (L.map Share.x).Pairwise (· ≠ ·)) :
    ∀ i j, i < L.length → j < L.length → i ≠ j →
      (L.getD i ⟨0, 0⟩).x ≠ (L.getD j ⟨0, 0⟩).x := by
  rw [List.pairwise_map] at h
  have h2 := List.pairwise_iff_get.mp h
  intro i j hi hj hij
  rw [List.getD_eq_get _ _ hi, List.getD_eq_get _ _ hj]
  rcases Nat.lt_or_ge i j with hlt | hge
  · exact h2 ⟨i, hi⟩ ⟨j, hj⟩ hlt
  · have hlt : j < i := lt_of_le_of_ne hge (Ne.symm hij)
    exact (h2 ⟨j, hj⟩ ⟨i, hi⟩ hlt).symm

/-- With pairwise distinct x-coordinates no Lagrange denominator vanishes. -/
theorem lagrangeDen_ne_zero {F : Type} [Field F] (L : List (Share F))
    (hdist : (L.map Share.x).Pairwise (· ≠ ·)) (i : ℕ) (hi : i < L.length) :
    lagrangeDen L i ≠ 0 := by
  rw [lagrangeDen_eq, Finset.prod_ne_zero_iff]
  intro j hj
  obtain ⟨hji, hjr⟩ := Finset.mem_erase.mp hj
  exact sub_ne_zero_of_ne
    (pairwise_x_getD L hdist j i (List.mem_range.mp hjr) hi hji)

/-- A nodup subset of a list with pairwise distinct x-coordinates again has
pairwise distinct x-coordinates. -/
theorem pairwise_x_subset {F : Type} (L S : List (Share F))
    (hL : (L.map Share.x).Pairwise (· ≠ ·)) (hsub : S ⊆ L) (hnd : S.Nodup) :
    (S.map Share.x).Pairwise (· ≠ ·) := by
  rw [List.pairwise_map] at hL ⊢
  have hsymm : Symmetric (fun a b : Share F => a.x ≠ b.x) := fun a b h => Ne.symm h
  have hLf := hL.forall hsymm
  exact hnd.imp_of_mem (fun ha hb hne => hLf (hsub ha) (hsub hb) hne)

/-! ## Interpolation: reconstruction of points on a low-degree polynomial -/

/-- Every coefficient list is the coefficient list of a polynomial of degree
less than its length. -/
theorem exists_poly_of_coeffs {F : Type} [Field F] (c : List F) :
    ∃ f : Polynomial F, f.degree < (c.length : ℕ) ∧ ∀ x, f.eval x = evalPoly c x := by
  refine ⟨∑ j ∈ Finset.range c.length, Polynomial.C (c.getD j 0) * Polynomial.X ^ j, ?_, ?_⟩
  · refine lt_of_le_of_lt (Polynomial.degree_sum_le _ _) ?_
    rw [Finset.sup_lt_iff (by exact_mod_cast WithBot.bot_lt_coe c.length)]
    intro j hj
    refine lt_of_le_of_lt (Polynomial.degree_C_mul_X_pow_le _ _) ?_
    exact_mod_cast List.mem_range.mp hj
  · intro x
    rw [Polynomial.eval_finset_sum, evalPoly, list_range_map_sum]
    refine Finset.sum_congr rfl (fun j _ => ?_)
    rw [Polynomial.eval_mul, Polynomial.eval_C, Polynomial.eval_pow, Polynomial.eval_X]

/-- The Lagrange sum computed by `shamir_reconstruct` applied to points on a
polynomial of degree below the number of points recovers the value at 0. -/
theorem lagrange_sum_eval_zero {F : Type} [Field F] (k : ℕ) (xf : ℕ → F)
    (f : Polynomial F) (hinj : Set.InjOn xf (Finset.range k))
    (hdeg : f.degree < (k : ℕ)) :
    ∑ i ∈ Finset.range k, f.eval (xf i) *
        ((∏ j ∈ (Finset.range k).erase i, xf j) *
          (∏ j ∈ (Finset.range k).erase i, (xf j - xf i))⁻¹)
      = f.eval 0 := by
  have hcard : f.degree < ((Finset.range k).card : ℕ) := by
    rwa [Finset.card_range]
  have hinterp := Lagrange.eq_interpolate hinj hcard
  conv_rhs => rw [hinterp]
  rw [Lagrange.interpolate_apply, Polynomial.eval_finset_sum]
  refine Finset.sum_congr rfl (fun i hi => ?_)
  rw [Polynomial.eval_mul, Polynomial.eval_C]
  congr 1
  rw [Lagrange.basis, Polynomial.eval_prod, ← Finset.prod_inv_distrib,
    ← Finset.prod_mul_distrib]
  refine Finset.prod_congr rfl (fun j hj => ?_)
  rw [Lagrange.basisDivisor, Polynomial.eval_mul, Polynomial.eval_C,
    Polynomial.eval_sub, Polynomial.eval_X, Polynomial.eval_C, zero_sub,
    show xf i - xf j = -(xf j - xf i) by ring, inv_neg]
  ring

/-- Main interpolation lemma: `shamir_reconstruct` applied to shares with
pairwise distinct x-coordinates lying on a polynomial of degree less than the
number of shares returns the polynomial's value at 0. -/
theorem shamir_reconstruct_eval {F : Type} [Field F] [DecidableEq F]
    (f : Polynomial F) (L : List (Share F))
    (hdist : (L.map Share.x).Pairwise (· ≠ ·))
    (hdeg : f.degree < (L.length : ℕ))
    (hval : ∀ s ∈ L, s.value = f.eval s.x) :
    shamir_reconstruct L = .ok (f.eval 0) := by
  rw [shamir_reconstruct_closed L (fun i hi => lagrangeDen_ne_zero L hdist i hi)]
  congr 1
  have hinj : Set.InjOn (fun j => (L.getD j ⟨0, 0⟩).x) (Finset.range L.length) := by
    intro i hi j hj hxy
    by_contra hne
    exact pairwise_x_getD L hdist i j
      (List.mem_range.mp (Finset.mem_coe.mp hi))
      (List.mem_range.mp (Finset.mem_coe.mp hj)) hne hxy
  rw [← lagrange_sum_eval_zero L.length (fun j => (L.getD j ⟨0, 0⟩).x) f hinj hdeg]
  refine Finset.sum_congr rfl (fun i hi => ?_)
  have hmem : L.getD i ⟨0, 0⟩ ∈ L := by
    rw [List.getD_eq_getElem _ _ (List.mem_range.mp hi)]
    exact List.getElem_mem _
  rw [lagrangeNum_eq, lagrangeDen_eq, hval _ hmem]

/-! ## Facts about generated share lists -/

theorem sharesOfPoly_length {F : Type} [Field F] (c : List F) (n : ℕ) :
    (sharesOfPoly c n).length = n := by
  simp [sharesOfPoly]

theorem sharesOfPoly_getD {F : Type} [Field F] (c : List F) {n i : ℕ} (hi : i < n) :
    (sharesOfPoly c n).getD i ⟨0, 0⟩
      = ⟨((i + 1 : ℕ) : F), evalPoly c ((i + 1 : ℕ) : F)⟩ := by
  rw [List.getD_eq_getElem _ _ (by simpa [sharesOfPoly_length] using hi)]
  simp [sharesOfPoly]

theorem sharesOfPoly_map_x {F : Type} [Field F] (c : List F) (n : ℕ) :
    (sharesOfPoly c n).map Share.x
      = (List.range n).map (fun i => ((i + 1 : ℕ) : F)) := by
  simp [sharesOfPoly, List.map_map]

theorem mem_sharesOfPoly {F : Type} [Field F] {c : List F} {n : ℕ} {s : Share F}
    (h : s ∈ sharesOfPoly c n) : s.value = evalPoly c s.x := by
  obtain ⟨i, _, rfl⟩ := List.mem_map.mp h
  rfl

/-! ## Distinctness of the evaluation points over a prime field -/

theorem cast_succ_ne {q : ℕ} [Fact (Nat.Prime q)] {i j n : ℕ}
    (hi : i < n) (hj : j < n) (hn : n < q) (hij : i ≠ j) :
    ((i + 1 : ℕ) : ZMod q) ≠ ((j + 1 : ℕ) : ZMod q) := by
  intro h
  have h1 : i + 1 < q := lt_of_le_of_lt (Nat.succ_le_of_lt hi) hn
  have h2 : j + 1 < q := lt_of_le_of_lt (Nat.succ_le_of_lt hj) hn
  have hv := ZMod.val_cast_of_lt h1
  rw [h, ZMod.val_cast_of_lt h2] at hv
  exact hij (Nat.succ_injective hv.symm)

theorem cast_succ_ne_zero {q : ℕ} [Fact (Nat.Prime q)] {i n : ℕ}
    (hi : i < n) (hn : n < q) : ((i + 1 : ℕ) : ZMod q) ≠ 0 := by
  intro h
  have h1 : i + 1 < q := lt_of_le_of_lt (Nat.succ_le_of_lt hi) hn
  have hv := ZMod.val_cast_of_lt h1
  rw [h, ZMod.val_zero] at hv
  exact Nat.succ_ne_zero i hv.symm

theorem sharesOfPoly_x_pairwise {q : ℕ} [Fact (Nat.Prime q)] (c : List (ZMod q))
    {n : ℕ} (hn : n < q) :
    ((sharesOfPoly c n).map Share.x).Pairwise (· ≠ ·) := by
  rw [sharesOfPoly_map_x, List.pairwise_map]
  refine (List.pairwise_lt_range n).imp_of_mem ?_
  intro a b ha hb hlt
  exact cast_succ_ne (List.mem_range.mp ha) (List.mem_range.mp hb) hn (Nat.ne_of_lt hlt)

/-- Evaluating a polynomial with constant term `a` at `0` gives `a`. -/
theorem evalPoly_cons_zero {F : Type} [Field F] (a : F) (r : List F) :
    evalPoly (a :: r) 0 = a := by
  rw [evalPoly, list_range_map_sum, Finset.sum_eq_single 0]
  · simp
  · intro j _ hj0
    rw [zero_pow hj0, mul_zero]
  · intro h
    simp [List.length_cons] at h

theorem shamirCoefficients_length {F : Type} [Field F] (secret : F) (t : ℕ) (rand : ℕ → F) :
    (shamirCoefficients secret t rand).length = t + 1 := by
  simp [shamirCoefficients]

/-! ## Claims about Shamir sharing and reconstruction -/

/-- **C1**: for every secret `s` and parameters `t < n`, `shamir_share`
builds a polynomial with exactly `t+1` coefficients whose constant term is
`s`, and reconstruction from every subset of `t+1` of the returned `n`
shares yields `s`.  (Stated over `ZMod q`; the Rust field `Fr` has
`n < 2^64 < q`, which the hypothesis `n < q` reflects.) -/
theorem claim_C1 {q : ℕ} [Fact (Nat.Prime q)] (s : ZMod q) (t n : ℕ) (rand : ℕ → ZMod q)
    (htn : t < n) (hnq : n < q) (S : List (Share (ZMod q)))
    (hsub : S ⊆ shamir_share s t n rand) (hnd : S.Nodup) (hlen : S.length = t + 1) :
    (shamirCoefficients s t rand).length = t + 1 ∧
    (shamirCoefficients s t rand).getD 0 0 = s ∧
    shamir_reconstruct S = .ok s := by
  refine ⟨shamirCoefficients_length s t rand, rfl, ?_⟩
  obtain ⟨f, hdeg, heval⟩ := exists_poly_of_coeffs (shamirCoefficients s t rand)
  have hLx : ((shamir_share s t n rand).map Share.x).Pairwise (· ≠ ·) :=
    sharesOfPoly_x_pairwise _ hnq
  have hSx := pairwise_x_subset _ S hLx hsub hnd
  have hdegS : f.degree < (S.length : ℕ) := by
    rw [hlen]
    exact shamirCoefficients_length s t rand ▸ hdeg
  have hvalS : ∀ sh ∈ S, sh.value = f.eval sh.x := by
    intro sh hsh
    rw [heval sh.x]
    exact mem_sharesOfPoly (hsub hsh)
  rw [shamir_reconstruct_eval f S hSx hdegS hvalS, heval 0]
  simp only [shamirCoefficients, evalPoly_cons_zero]

/-- Witness for C1 at `q = 101`, `s = 42`, `t = 1`, `n = 2`, with the full
share list as the subset. -/
theorem claim_C1_witness :
    (shamir_share (42 : ZMod 101) 1 2 (fun _ => 7)).length = 1 + 1 ∧
    shamir_reconstruct (shamir_share (42 : ZMod 101) 1 2 (fun _ => 7)) = .ok 42 :=
  ⟨by decide,
    (claim_C1 42 1 2 (fun _ => 7) (by norm_num) (by norm_num) _
      (fun a ha => ha) (by decide) (by decide)).2.2⟩

/-- **C4**: `shamir_reconstruct` fails with `DuplicateX` exactly when two
shares of its input carry the same x-coordinate, and on pairwise distinct
x-coordinates it returns a value. -/
theorem claim_C4 {F : Type} [Field F] [DecidableEq F] (L : List (Share F)) :
    (shamir_reconstruct L = .error .DuplicateX ↔
      ∃ i j, i < L.length ∧ j < L.length ∧ i ≠ j ∧
        (L.getD i ⟨0, 0⟩).x = (L.getD j ⟨0, 0⟩).x) ∧
    ((L.map Share.x).Pairwise (· ≠ ·) → ∃ v, shamir_reconstruct L = .ok v) := by
  constructor
  · rw [shamir_reconstruct_error_iff]
    constructor
    · rintro ⟨i, hi, hden⟩
      rw [lagrangeDen_eq, Finset.prod_eq_zero_iff] at hden
      obtain ⟨j, hj, hsub⟩ := hden
      obtain ⟨hji, hjr⟩ := Finset.mem_erase.mp hj
      exact ⟨j, i, List.mem_range.mp hjr, hi, hji, sub_eq_zero.mp hsub⟩
    · rintro ⟨i, j, hi, hj, hij, hx⟩
      refine ⟨j, hj, ?_⟩
      rw [lagrangeDen_eq, Finset.prod_eq_zero_iff]
      exact ⟨i, Finset.mem_erase.mpr ⟨hij, List.mem_range.mpr hi⟩,
        sub_eq_zero.mpr hx⟩
  · intro hdist
    exact ⟨_, shamir_reconstruct_closed L
      (fun i hi => lagrangeDen_ne_zero L hdist i hi)⟩

/-- Witness for C4: two shares at the same `x = 1` trigger `DuplicateX`. -/
theorem claim_C4_witness :
    shamir_reconstruct [(⟨1, 2⟩ : Share (ZMod 101)), ⟨1, 3⟩] = .error .DuplicateX :=
  (claim_C4 [(⟨1, 2⟩ : Share (ZMod 101)), ⟨1, 3⟩]).1.mpr
    ⟨0, 1, by norm_num, by norm_num, by norm_num, by decide⟩

/-- **C7**: `shamir_share s t n rand` returns exactly `n` shares whose
x-coordinates are, in order, `1, 2, …, n`; every x is nonzero and they are
pairwise distinct.  (Over `ZMod q` with `n < q`, which always holds for the
Rust `Fr` since `n < 2^64 < q`.) -/
theorem claim_C7 {q : ℕ} [Fact (Nat.Prime q)] (s : ZMod q) (t n : ℕ) (rand : ℕ → ZMod q)
    (hn : 1 ≤ n) (hnq : n < q) :
    (shamir_share s t n rand).length = n ∧
    (∀ i, i < n → ((shamir_share s t n rand).getD i ⟨0, 0⟩).x = ((i + 1 : ℕ) : ZMod q)) ∧
    (∀ i, i < n → ((shamir_share s t n rand).getD i ⟨0, 0⟩).x ≠ 0) ∧
    ((shamir_share s t n rand).map Share.x).Pairwise (· ≠ ·) := by
  refine ⟨sharesOfPoly_length _ n, ?_, ?_, sharesOfPoly_x_pairwise _ hnq⟩
  · intro i hi
    rw [shamir_share, sharesOfPoly_getD _ hi]
  · intro i hi
    rw [shamir_share, sharesOfPoly_getD _ hi]
    exact cast_succ_ne_zero hi hnq

/-- Witness for C7 at `q = 101`, `n = 5`. -/
theorem claim_C7_witness :
    (shamir_share (3 : ZMod 101) 2 5 (fun _ => 9)).length = 5 ∧
    ((shamir_share (3 : ZMod 101) 2 5 (fun _ => 9)).getD 2 ⟨0, 0⟩).x = ((3 : ℕ) : ZMod 101) := by
  have h := claim_C7 (3 : ZMod 101) 2 5 (fun _ => 9) (by norm_num) (by norm_num)
  exact ⟨h.1, h.2.1 2 (by norm_num)⟩

/-- **C9**: `shamir_reconstruct` on the empty share list does not fail: the
loop body never runs and the initial accumulator `0` is returned. -/
theorem claim_C9 {F : Type} [Field F] [DecidableEq F] :
    shamir_reconstruct ([] : List (Share F)) = .ok 0 :=
  rfl

/-! ## Additive homomorphism -/

theorem x_getD_map {F : Type} [Field F] (L : List (Share F)) (j : ℕ) :
    (L.getD j ⟨0, 0⟩).x = (L.map Share.x).getD j 0 := by
  rcases Nat.lt_or_ge j L.length with h | h
  · rw [List.getD_eq_getElem _ _ h, List.getD_eq_getElem _ _ (by simpa using h)]
    simp
  · rw [List.getD_eq_default _ _ h, List.getD_eq_default _ _ (by simpa using h)]

/-- The Lagrange numerator only depends on the x-coordinates. -/
theorem lagrangeNum_congr {F : Type} [Field F] {L L' : List (Share F)}
    (h : L.map Share.x = L'.map Share.x) (i : ℕ) :
    lagrangeNum L i = lagrangeNum L' i := by
  have hlen : L.length = L'.length := by
    have := congrArg List.length h
    simpa using this
  rw [lagrangeNum, lagrangeNum, hlen]
  simp only [x_getD_map, h]

/-- The Lagrange denominator only depends on the x-coordinates. -/
theorem lagrangeDen_congr {F : Type} [Field F] {L L' : List (Share F)}
    (h : L.map Share.x = L'.map Share.x) (i : ℕ) :
    lagrangeDen L i = lagrangeDen L' i := by
  have hlen : L.length = L'.length := by
    have := congrArg List.length h
    simpa using this
  rw [lagrangeDen, lagrangeDen, hlen]
  simp only [x_getD_map, h]

theorem addShares_map_x {F : Type} [Field F] :
    ∀ (L1 L2 : List (Share F)), L1.length = L2.length →
      (addShares L1 L2).map Share.x = L1.map Share.x
  | [], [], _ => rfl
  | [], _ :: _, h => by simp at h
  | _ :: _, [], h => by simp at h
  | a :: L1, b :: L2, h => by
    simp only [addShares, List.zipWith_cons_cons, List.map_cons]
    exact congrArg (List.cons a.x)
      (addShares_map_x L1 L2 (Nat.succ_injective (by simpa using h)))

theorem addShares_getD {F : Type} [Field F] (L1 L2 : List (Share F))
    (hlen : L1.length = L2.length) {i : ℕ} (hi : i < L1.length) :
    (addShares L1 L2).getD i ⟨0, 0⟩
      = eval_add (L1.getD i ⟨0, 0⟩) (L2.getD i ⟨0, 0⟩) := by
  have hZ : (addShares L1 L2).length = L1.length := by
    simp [addShares, hlen]
  rw [List.getD_eq_getElem _ _ (by rw [hZ]; exact hi),
    List.getD_eq_getElem _ _ hi, List.getD_eq_getElem _ _ (hlen ▸ hi)]
  simp [addShares]

/-- **C3**: for two share lists with matching pairwise-distinct x-coordinates
that reconstruct to `s₁` and `s₂`, the pointwise sums computed by `eval_add`
reconstruct to `s₁ + s₂`. -/
theorem claim_C3 {F : Type} [Field F] [DecidableEq F] (L1 L2 : List (Share F)) (s1 s2 : F)
    (hx : L1.map Share.x = L2.map Share.x)
    (hdist : (L1.map Share.x).Pairwise (· ≠ ·))
    (h1 : shamir_reconstruct L1 = .ok s1) (h2 : shamir_reconstruct L2 = .ok s2) :
    shamir_reconstruct (addShares L1 L2) = .ok (s1 + s2) := by
  have hlen : L1.length = L2.length := by
    have := congrArg List.length hx
    simpa using this
  have hZx : (addShares L1 L2).map Share.x = L1.map Share.x := addShares_map_x L1 L2 hlen
  have hZlen : (addShares L1 L2).length = L1.length := by
    simp [addShares, hlen]
  have hden1 : ∀ i, i < L1.length → lagrangeDen L1 i ≠ 0 := lagrangeDen_ne_zero L1 hdist
  have hden2 : ∀ i, i < L2.length → lagrangeDen L2 i ≠ 0 := by
    intro i hi
    rw [← lagrangeDen_congr hx i]
    exact hden1 i (hlen ▸ hi)
  have hdenZ : ∀ i, i < (addShares L1 L2).length → lagrangeDen (addShares L1 L2) i ≠ 0 := by
    intro i hi
    rw [lagrangeDen_congr hZx i]
    exact hden1 i (hZlen ▸ hi)
  have hs1 : s1 = ∑ i ∈ Finset.range L1.length,
      (L1.getD i ⟨0, 0⟩).value * (lagrangeNum L1 i * (lagrangeDen L1 i)⁻¹) :=
    Except.ok.inj (h1.symm.trans (shamir_reconstruct_closed L1 hden1))
  have hs2 : s2 = ∑ i ∈ Finset.range L2.length,
      (L2.getD i ⟨0, 0⟩).value * (lagrangeNum L2 i * (lagrangeDen L2 i)⁻¹) :=
    Except.ok.inj (h2.symm.trans (shamir_reconstruct_closed L2 hden2))
  rw [shamir_reconstruct_closed (addShares L1 L2) hdenZ]
  congr 1
  rw [hs1, hs2, hZlen, ← hlen, ← Finset.sum_add_distrib]
  refine Finset.sum_congr rfl (fun i hi => ?_)
  have hi1 : i < L1.length := List.mem_range.mp hi
  rw [addShares_getD L1 L2 hlen hi1, lagrangeNum_congr hZx i, lagrangeDen_congr hZx i,
    lagrangeNum_congr hx i, lagrangeDen_congr hx i]
  simp only [eval_add]
  ring

/-- Witness for C3 on singleton sharings over `ZMod 101`. -/
theorem claim_C3_witness :
    shamir_reconstruct (addShares [(⟨1, 5⟩ : Share (ZMod 101))] [⟨1, 9⟩]) = .ok (5 + 9) := by
  refine claim_C3 [(⟨1, 5⟩ : Share (ZMod 101))] [⟨1, 9⟩] 5 9 rfl (by simp) ?_ ?_ <;>
    · simp [shamir_reconstruct, reconstructSum, lagrangeNum, lagrangeDen, Except.map,
        List.range_succ, List.filter]

/-! ## Multiplication gate: end-to-end degree reduction -/

theorem zipWith_map_same {α β γ δ : Type} (f : β → γ → δ) (g : α → β) (h : α → γ) :
    ∀ l : List α, List.zipWith f (l.map g) (l.map h) = l.map (fun a => f (g a) (h a))
  | [] => rfl
  | a :: l => by
    simp only [List.map_cons, List.zipWith_cons_cons]
    rw [zipWith_map_same f g h l]

/-- The local products of two polynomial sharings are the evaluations of the
pointwise product at `x = 1, …, n`. -/
theorem localProducts_sharesOfPoly {F : Type} [Field F] (ca cb : List F) (n : ℕ) :
    localProducts (sharesOfPoly ca n) (sharesOfPoly cb n)
      = (List.range n).map (fun i =>
          ⟨((i + 1 : ℕ) : F), evalPoly ca ((i + 1 : ℕ) : F) * evalPoly cb ((i + 1 : ℕ) : F)⟩) := by
  rw [localProducts, sharesOfPoly, sharesOfPoly, zipWith_map_same]
  rfl

theorem localProducts_map_x {F : Type} [Field F] (ca cb : List F) (n : ℕ) :
    (localProducts (sharesOfPoly ca n) (sharesOfPoly cb n)).map Share.x
      = (List.range n).map (fun i => ((i + 1 : ℕ) : F)) := by
  rw [localProducts_sharesOfPoly, List.map_map]
  rfl

/-- Pairwise distinctness of the nonzero evaluation points `1, …, n` in a
prime field with `n < q`. -/
theorem cast_range_pairwise {q : ℕ} [Fact (Nat.Prime q)] {n : ℕ} (hn : n < q) :
    ((List.range n).map (fun i => ((i + 1 : ℕ) : ZMod q))).Pairwise (· ≠ ·) := by
  rw [List.pairwise_map]
  refine (List.pairwise_lt_range n).imp_of_mem ?_
  intro a b ha hb hlt
  exact cast_succ_ne (List.mem_range.mp ha) (List.mem_range.mp hb) hn (Nat.ne_of_lt hlt)

/-- In `WithBot ℕ` (the codomain of `Polynomial.degree`), being below `t+1`
is being at most `t`. -/
theorem degree_lt_succ_iff {a : WithBot ℕ} {t : ℕ} :
    a < ((t + 1 : ℕ) : WithBot ℕ) ↔ a ≤ ((t : ℕ) : WithBot ℕ) := by
  cases a with
  | bot => exact iff_of_true (by exact_mod_cast WithBot.bot_lt_coe (t + 1)) bot_le
  | coe m =>
    rw [Nat.cast_withBot, Nat.cast_withBot, WithBot.coe_lt_coe, WithBot.coe_le_coe]
    exact Nat.lt_succ_iff

/-- Evaluation at 0 picks out the constant coefficient. -/
theorem evalPoly_zero_getD {F : Type} [Field F] (c : List F) :
    evalPoly c 0 = c.getD 0 0 := by
  cases c with
  | nil => rfl
  | cons a r => exact evalPoly_cons_zero a r

/-- **C2**: end-to-end multiplicative correctness of the degree-reduction
subprotocol of `eval_mul`.  Given two degree-t sharings at `x = 1..n` (as the
evaluations of arbitrary coefficient lists of length `t+1`) with `2t+1 ≤ n`,
if every party `p` collects some `2t+1` distinct local-product shares
(`sel p`), opens the product, reshares it with fresh degree-t randomness, and
every party `q` averages the `n` reshare values addressed to it by `n⁻¹`,
then the `n` resulting shares at `x = 1..n` reconstruct to the product of the
two secrets. -/
theorem claim_C2 {q : ℕ} [Fact (Nat.Prime q)] (t n : ℕ) (ca cb : List (ZMod q))
    (sel : ℕ → List (Share (ZMod q))) (rand2 : ℕ → ℕ → ZMod q)
    (htn : 2 * t + 1 ≤ n) (hnq : n < q)
    (hca : ca.length = t + 1) (hcb : cb.length = t + 1)
    (hsel : ∀ p, p < n →
      sel p ⊆ localProducts (sharesOfPoly ca n) (sharesOfPoly cb n) ∧
      (sel p).Nodup ∧ (sel p).length = 2 * t + 1) :
    shamir_reconstruct (mulFinalShares t n sel rand2)
      = .ok (ca.getD 0 0 * cb.getD 0 0) := by
  have hn0 : 0 < n := lt_of_lt_of_le (Nat.succ_pos _) htn
  have hnF : ((n : ℕ) : ZMod q) ≠ 0 := by
    intro h
    have hv := ZMod.val_cast_of_lt hnq
    rw [h, ZMod.val_zero] at hv
    omega
  obtain ⟨fa, hdega, hevala⟩ := exists_poly_of_coeffs ca
  obtain ⟨fb, hdegb, hevalb⟩ := exists_poly_of_coeffs cb
  have hdega' : fa.degree ≤ ((t : ℕ) : WithBot ℕ) :=
    degree_lt_succ_iff.mp (by rw [← hca]; exact hdega)
  have hdegb' : fb.degree ≤ ((t : ℕ) : WithBot ℕ) :=
    degree_lt_succ_iff.mp (by rw [← hcb]; exact hdegb)
  have hdegab : (fa * fb).degree < ((2 * t + 1 : ℕ) : WithBot ℕ) := by
    refine lt_of_le_of_lt (Polynomial.degree_mul_le fa fb) ?_
    refine lt_of_le_of_lt (add_le_add hdega' hdegb') ?_
    exact_mod_cast (by omega : t + t < 2 * t + 1)
  set s12 := ca.getD 0 0 * cb.getD 0 0 with hs12
  -- every party opens the same product value s12
  have hLPx : ((localProducts (sharesOfPoly ca n) (sharesOfPoly cb n)).map Share.x).Pairwise
      (· ≠ ·) := by
    rw [localProducts_map_x]
    exact cast_range_pairwise hnq
  have hopen : ∀ p, p < n → reconstructValue (sel p) = s12 := by
    intro p hp
    obtain ⟨hsub, hnd, hlen⟩ := hsel p hp
    have hSx := pairwise_x_subset _ _ hLPx hsub hnd
    have hdegS : (fa * fb).degree < ((sel p).length : ℕ) := by
      rw [hlen]
      exact hdegab
    have hvalS : ∀ sh ∈ sel p, sh.value = (fa * fb).eval sh.x := by
      intro sh hsh
      have := hsub hsh
      rw [localProducts_sharesOfPoly] at this
      obtain ⟨i, _, rfl⟩ := List.mem_map.mp this
      rw [Polynomial.eval_mul, hevala, hevalb]
    rw [reconstructValue, shamir_reconstruct_eval (fa * fb) (sel p) hSx hdegS hvalS,
      Polynomial.eval_mul, hevala 0, hevalb 0, evalPoly_zero_getD, evalPoly_zero_getD]
  -- the reshare polynomial coefficients of party p
  choose g hgdeg hgeval using
    fun p : ℕ => exists_poly_of_coeffs (shamirCoefficients s12 t (rand2 p))
  have hgdeg' : ∀ p, (g p).degree ≤ ((t : ℕ) : WithBot ℕ) := by
    intro p
    refine degree_lt_succ_iff.mp ?_
    rw [← shamirCoefficients_length s12 t (rand2 p)]
    exact hgdeg p
  -- the averaged polynomial G
  set G := (∑ p ∈ Finset.range n, g p) * Polynomial.C (((n : ℕ) : ZMod q))⁻¹ with hG
  have hdegG : G.degree < ((n : ℕ) : WithBot ℕ) := by
    rw [hG]
    refine lt_of_le_of_lt (Polynomial.degree_mul_le _ _) ?_
    have h1 : (∑ p ∈ Finset.range n, g p).degree ≤ ((t : ℕ) : WithBot ℕ) :=
      le_trans (Polynomial.degree_sum_le _ _) (Finset.sup_le (fun p _ => hgdeg' p))
    refine lt_of_le_of_lt (add_le_add h1 Polynomial.degree_C_le) ?_
    rw [add_zero]
    exact_mod_cast (by omega : t < n)
  have hGeval : ∀ x : ZMod q, G.eval x
      = (∑ p ∈ Finset.range n, evalPoly (shamirCoefficients s12 t (rand2 p)) x)
        * (((n : ℕ) : ZMod q))⁻¹ := by
    intro x
    rw [hG, Polynomial.eval_mul, Polynomial.eval_C, Polynomial.eval_finset_sum]
    congr 1
    exact Finset.sum_congr rfl (fun p _ => hgeval p x)
  -- the final share list consists of evaluations of G
  have hfinal : mulFinalShares t n sel rand2
      = (List.range n).map (fun q' => ⟨((q' + 1 : ℕ) : ZMod q), G.eval ((q' + 1 : ℕ) : ZMod q)⟩) := by
    rw [mulFinalShares]
    refine List.map_congr_left (fun q' hq' => ?_)
    have hq'n : q' < n := List.mem_range.mp hq'
    rw [mulFinalShare]
    congr 1
    have hmap : (List.range n).map
        (fun p => ((reshareShares t n (sel p) (rand2 p)).getD q' ⟨0, 0⟩).value)
        = (List.range n).map
            (fun p => evalPoly (shamirCoefficients s12 t (rand2 p)) ((q' + 1 : ℕ) : ZMod q)) := by
      refine List.map_congr_left (fun p hp => ?_)
      rw [reshareShares, hopen p (List.mem_range.mp hp), shamir_share,
        sharesOfPoly_getD _ hq'n]
    rw [hmap, list_range_map_sum, hGeval]
  -- reconstruct the final shares
  have hFx : ((mulFinalShares t n sel rand2).map Share.x).Pairwise (· ≠ ·) := by
    rw [hfinal, List.map_map]
    exact cast_range_pairwise hnq
  have hFlen : (mulFinalShares t n sel rand2).length = n := by
    rw [hfinal, List.length_map, List.length_range]
  have hFval : ∀ sh ∈ mulFinalShares t n sel rand2, sh.value = G.eval sh.x := by
    intro sh hsh
    rw [hfinal] at hsh
    obtain ⟨i, _, rfl⟩ := List.mem_map.mp hsh
    rfl
  rw [shamir_reconstruct_eval G _ hFx (by rw [hFlen]; exact hdegG) hFval, hGeval 0]
  congr 1
  have hconst : ∀ p ∈ Finset.range n,
      evalPoly (shamirCoefficients s12 t (rand2 p)) 0 = s12 := by
    intro p _
    rw [evalPoly_zero_getD]
    rfl
  rw [Finset.sum_congr rfl hconst, Finset.sum_const, Finset.card_range, nsmul_eq_mul,
    mul_comm ((n : ℕ) : ZMod q) s12, mul_assoc, mul_inv_cancel₀ hnF, mul_one]

/-- Witness for C2: `q = 101`, `t = 1`, `n = 3`, secrets `2` and `3`, every
party selecting all three local products. -/
theorem claim_C2_witness :
    shamir_reconstruct (mulFinalShares (F := ZMod 101) 1 3
        (fun _ => localProducts (sharesOfPoly [2, 5] 3) (sharesOfPoly [3, 7] 3))
        (fun _ _ => 4))
      = .ok (([2, 5] : List (ZMod 101)).getD 0 0 * ([3, 7] : List (ZMod 101)).getD 0 0) :=
  claim_C2 1 3 [2, 5] [3, 7]
    (fun _ => localProducts (sharesOfPoly [2, 5] 3) (sharesOfPoly [3, 7] 3))
    (fun _ _ => 4) (by norm_num) (by norm_num) (by norm_num) (by norm_num)
    (by decide)

/-! ## The reshare-collection timeout (step 7 of eval_mul) -/

/-- The collection loop adds at most one share per received *qualifying*
message: only a `Reshare` for the current wire at the party's own x can ever
be appended, so stray broadcasts, foreign-wire messages and duplicates never
help the loop towards `n`. -/
theorem reshareLoop_length_le_qualifying {F : Type} [Field F] [DecidableEq F]
    (n out : ℕ) (myx : F) :
    ∀ (msgs : List (Message F)) (final : List (Share F)),
      (reshareLoop n out myx final msgs).1.length
        ≤ final.length + (msgs.filter (isMyReshare out myx)).length := by
  intro msgs
  induction msgs with
  | nil =>
    intro final
    simp [reshareLoop]
  | cons m rest ih =>
    intro final
    by_cases hfull : n ≤ final.length
    · have hstep : reshareLoop n out myx final (m :: rest) = (final, m :: rest) := by
        simp only [reshareLoop, if_pos hfull]
      rw [hstep]
      exact Nat.le_add_right _ _
    · cases m with
      | Reshare wire s =>
        by_cases hq : wire = out ∧ s.x = myx
        · have hfilter : (Message.Reshare wire s :: rest).filter (isMyReshare out myx)
              = Message.Reshare wire s :: rest.filter (isMyReshare out myx) := by
            simp [List.filter_cons, isMyReshare, hq]
          by_cases hdup : (final.any fun s0 => s0.x = s.x ∧ s0.value = s.value) = true
          · have hstep : reshareLoop n out myx final (Message.Reshare wire s :: rest)
                = reshareLoop n out myx final rest := by
              simp only [reshareLoop, if_neg hfull]
              rw [if_pos hq, if_neg (not_not_intro hdup)]
            rw [hstep, hfilter]
            refine le_trans (ih final) ?_
            simp only [List.length_cons]
            omega
          · have hstep : reshareLoop n out myx final (Message.Reshare wire s :: rest)
                = reshareLoop n out myx (final ++ [s]) rest := by
              simp only [reshareLoop, if_neg hfull]
              rw [if_pos hq, if_pos hdup]
            rw [hstep, hfilter]
            refine le_trans (ih (final ++ [s])) ?_
            simp only [List.length_append, List.length_cons, List.length_nil]
            omega
        · have hfilter : (Message.Reshare wire s :: rest).filter (isMyReshare out myx)
              = rest.filter (isMyReshare out myx) := by
            simp [List.filter_cons, isMyReshare, hq]
          have hstep : reshareLoop n out myx final (Message.Reshare wire s :: rest)
              = reshareLoop n out myx final rest := by
            simp only [reshareLoop, if_neg hfull]
            rw [if_neg hq]
          rw [hstep, hfilter]
          exact ih final
      | InputShare wire s =>
        have hstep : reshareLoop n out myx final (Message.InputShare wire s :: rest)
            = reshareLoop n out myx final rest := by
          simp only [reshareLoop, if_neg hfull]
        rw [hstep, show (Message.InputShare wire s :: rest).filter (isMyReshare out myx)
            = rest.filter (isMyReshare out myx) from by simp [List.filter_cons, isMyReshare]]
        exact ih final
      | MulShare wire s =>
        have hstep : reshareLoop n out myx final (Message.MulShare wire s :: rest)
            = reshareLoop n out myx final rest := by
          simp only [reshareLoop, if_neg hfull]
        rw [hstep, show (Message.MulShare wire s :: rest).filter (isMyReshare out myx)
            = rest.filter (isMyReshare out myx) from by simp [List.filter_cons, isMyReshare]]
        exact ih final
      | OutputShare wire s =>
        have hstep : reshareLoop n out myx final (Message.OutputShare wire s :: rest)
            = reshareLoop n out myx final rest := by
          simp only [reshareLoop, if_neg hfull]
        rw [hstep, show (Message.OutputShare wire s :: rest).filter (isMyReshare out myx)
            = rest.filter (isMyReshare out myx) from by simp [List.filter_cons, isMyReshare]]
        exact ih final

/-- **C5**: whenever the reshare-collection wait of `eval_mul` times out (the
incoming stream runs out) before all `n` reshare values have been collected
— for any reason: an empty inbox, lost messages, stray `MulShare`s from
step 2, or duplicate reshares discarded by the dedup guard — the party
aborts the multiplication upward with `ProtocolTimeout` (the failed
`assert_eq!` after the broken loop, src/party.rs lines 205-211).  The second
conjunct gives the inbox-level sufficient condition: if fewer than `n - 1`
of the delivered messages are reshares for the current wire at the party's
own x, the loop necessarily falls short, whatever else the inbox holds. -/
theorem claim_C5 {F : Type} [Field F] [DecidableEq F] (n out : ℕ) (myx : F)
    (own : Share F) (msgs : List (Message F)) :
    ((reshareLoop n out myx [own] msgs).1.length < n →
      collectReshares n out myx own msgs = .error .ProtocolTimeout) ∧
    ((msgs.filter (isMyReshare out myx)).length + 1 < n →
      collectReshares n out myx own msgs = .error .ProtocolTimeout) := by
  constructor
  · intro h
    rw [collectReshares]
    simp only [if_neg (Nat.ne_of_lt h)]
  · intro h
    have hlen := reshareLoop_length_le_qualifying n out myx msgs [own]
    rw [collectReshares]
    have hne : (reshareLoop n out myx [own] msgs).1.length ≠ n := by
      simp only [List.length_cons, List.length_nil] at hlen
      omega
    simp only [if_neg hne]

/-- Witness for C5, covering both conjuncts: a full-size inbox of duplicate
reshares (the dedup guard drops the copy, so only 2 of 3 values arrive), and
a full-size inbox of stray step-2 `MulShare`s (nothing qualifies).  In both
runs the inbox holds `n - 1` messages, yet the collection times out short
and the multiplication aborts with `ProtocolTimeout`. -/
theorem claim_C5_witness :
    collectReshares (F := ZMod 101) 3 5 (1 : ZMod 101) ⟨1, 10⟩
        [Message.Reshare 5 ⟨1, 20⟩, Message.Reshare 5 ⟨1, 20⟩]
      = .error .ProtocolTimeout ∧
    collectReshares (F := ZMod 101) 3 5 (1 : ZMod 101) ⟨1, 10⟩
        [Message.MulShare 5 ⟨2, 20⟩, Message.MulShare 5 ⟨3, 30⟩]
      = .error .ProtocolTimeout :=
  ⟨(claim_C5 3 5 1 ⟨1, 10⟩
      [Message.Reshare 5 ⟨1, 20⟩, Message.Reshare 5 ⟨1, 20⟩]).1 (by decide),
   (claim_C5 3 5 1 ⟨1, 10⟩
      [Message.MulShare 5 ⟨2, 20⟩, Message.MulShare 5 ⟨3, 30⟩]).2 (by decide)⟩

/-! ## Message handling during broadcast collection (step 3 of eval_mul) -/

/-- Counterexample to **C6** as stated: during the step-3 collection loop a
`MulShare` addressed to wire 7 (while wire 5 is being evaluated) is received
and dropped.  After the loop completes, the message is gone: it is not in
the collected share list, and not in the remaining inbox either — it was
neither buffered nor requeued, so it is *not* available for later
processing, contrary to the claim. -/
theorem claim_C6_cex :
    Message.MulShare 7 (⟨2, 99⟩ : Share (ZMod 101))
        ∈ [Message.MulShare 7 (⟨2, 99⟩ : Share (ZMod 101)),
           Message.MulShare 5 ⟨2, 20⟩, Message.MulShare 5 ⟨3, 30⟩,
           Message.InputShare 0 ⟨9, 9⟩] ∧
    (mulShareLoop 1 5 [(⟨1, 10⟩ : Share (ZMod 101))]
        [Message.MulShare 7 ⟨2, 99⟩, Message.MulShare 5 ⟨2, 20⟩,
         Message.MulShare 5 ⟨3, 30⟩, Message.InputShare 0 ⟨9, 9⟩]).1
      = [⟨1, 10⟩, ⟨2, 20⟩, ⟨3, 30⟩] ∧
    (mulShareLoop 1 5 [(⟨1, 10⟩ : Share (ZMod 101))]
        [Message.MulShare 7 ⟨2, 99⟩, Message.MulShare 5 ⟨2, 20⟩,
         Message.MulShare 5 ⟨3, 30⟩, Message.InputShare 0 ⟨9, 9⟩]).2
      = [Message.InputShare 0 ⟨9, 9⟩] ∧
    (⟨2, 99⟩ : Share (ZMod 101)) ∉
      (mulShareLoop 1 5 [(⟨1, 10⟩ : Share (ZMod 101))]
        [Message.MulShare 7 ⟨2, 99⟩, Message.MulShare 5 ⟨2, 20⟩,
         Message.MulShare 5 ⟨3, 30⟩, Message.InputShare 0 ⟨9, 9⟩]).1 ∧
    Message.MulShare 7 (⟨2, 99⟩ : Share (ZMod 101)) ∉
      (mulShareLoop 1 5 [(⟨1, 10⟩ : Share (ZMod 101))]
        [Message.MulShare 7 ⟨2, 99⟩, Message.MulShare 5 ⟨2, 20⟩,
         Message.MulShare 5 ⟨3, 30⟩, Message.InputShare 0 ⟨9, 9⟩]).2 := by
  decide

/-- **C6 amended**: during the step-3 collection loop, every received message
that is not a fresh-x `MulShare` for the current wire — in particular every
message addressed to a different wire — is consumed and discarded, not
buffered or requeued: the messages form a consumed prefix followed by the
untouched remainder of the inbox, and everything in the collected list comes
either from the initial accumulator or from a consumed `MulShare` for the
current wire. -/
theorem claim_C6_amended {F : Type} [Field F] [DecidableEq F] (t out : ℕ)
    (msgs : List (Message F)) (acc : List (Share F)) :
    (∃ consumed, msgs = consumed ++ (mulShareLoop t out acc msgs).2) ∧
    (∀ s ∈ (mulShareLoop t out acc msgs).1,
      s ∈ acc ∨ Message.MulShare out s ∈ msgs) := by
  induction msgs generalizing acc with
  | nil =>
    constructor
    · exact ⟨[], by simp [mulShareLoop]⟩
    · intro s hs
      left
      simpa [mulShareLoop] using hs
  | cons m rest ih =>
    by_cases hfull : 2 * t + 1 ≤ acc.length
    · constructor
      · exact ⟨[], by simp [mulShareLoop, hfull]⟩
      · intro s hs
        left
        simpa [mulShareLoop, hfull] using hs
    · have hdrop : mulShareLoop t out acc (m :: rest) = mulShareLoop t out acc rest →
          (∃ consumed, m :: rest = consumed ++ (mulShareLoop t out acc (m :: rest)).2) ∧
          (∀ s ∈ (mulShareLoop t out acc (m :: rest)).1,
            s ∈ acc ∨ Message.MulShare out s ∈ m :: rest) := by
        intro heq
        rw [heq]
        obtain ⟨⟨con, hcon⟩, hb⟩ := ih acc
        refine ⟨⟨m :: con, by rw [List.cons_append, ← hcon]⟩, ?_⟩
        intro s hs
        rcases hb s hs with h' | h'
        · exact Or.inl h'
        · exact Or.inr (List.mem_cons_of_mem _ h')
      cases m with
      | MulShare wire sh =>
        by_cases hacc : wire = out ∧ ¬ (acc.any fun s0 => s0.x = sh.x)
        · have heq : mulShareLoop t out acc (Message.MulShare wire sh :: rest)
              = mulShareLoop t out (acc ++ [sh]) rest := by
            simp [mulShareLoop, hfull, hacc]
          obtain ⟨⟨con, hcon⟩, hb⟩ := ih (acc ++ [sh])
          constructor
          · exact ⟨Message.MulShare wire sh :: con, by rw [heq, List.cons_append, ← hcon]⟩
          · intro s hs
            rw [heq] at hs
            rcases hb s hs with h' | h'
            · rcases List.mem_append.mp h' with h'' | h''
              · exact Or.inl h''
              · right
                have hse : s = sh := List.mem_singleton.mp h''
                have : Message.MulShare out s = Message.MulShare wire sh := by
                  rw [hacc.1, hse]
                rw [this]
                exact List.mem_cons_self _ _
            · exact Or.inr (List.mem_cons_of_mem _ h')
        · exact hdrop (by simp only [mulShareLoop]; rw [if_neg hfull, if_neg hacc])
      | InputShare wire sh => exact hdrop (by simp only [mulShareLoop]; rw [if_neg hfull])
      | OutputShare wire sh => exact hdrop (by simp only [mulShareLoop]; rw [if_neg hfull])
      | Reshare wire sh => exact hdrop (by simp only [mulShareLoop]; rw [if_neg hfull])

/-! ## Topological order: the DFS of Circuit::topological_order -/

theorem getD_set_self_bool (l : List Bool) {i : ℕ} (h : i < l.length) (b d : Bool) :
    (l.set i b).getD i d = b := by
  rw [List.getD_eq_getElem _ _ (by simpa using h)]
  simp

theorem getD_set_ne_bool (l : List Bool) {i j : ℕ} (hij : i ≠ j) (b d : Bool) :
    (l.set i b).getD j d = l.getD j d := by
  rcases Nat.lt_or_ge j l.length with h | h
  · rw [List.getD_eq_getElem _ _ (by simpa using h), List.getD_eq_getElem _ _ h]
    exact List.getElem_set_ne hij _
  · rw [List.getD_eq_default _ _ (by simpa using h), List.getD_eq_default _ _ h]

theorem lt_of_getD_false (l : List Bool) {i : ℕ} (h : l.getD i true = false) :
    i < l.length := by
  by_contra hc
  rw [List.getD_eq_default _ _ (Nat.le_of_not_lt hc)] at h
  exact Bool.noConfusion h

theorem dfsPost_refl (st : List Bool × List ℕ) : DfsPost st st :=
  ⟨rfl, fun _ h => h, [], by simp, List.nodup_nil, by simp, fun i => by simp⟩

theorem dfsPost_trans {s1 s2 s3 : List Bool × List ℕ}
    (h12 : DfsPost s1 s2) (h23 : DfsPost s2 s3) : DfsPost s1 s3 := by
  obtain ⟨hl12, hm12, n1, ho12, hnd1, hb1, hiff1⟩ := h12
  obtain ⟨hl23, hm23, n2, ho23, hnd2, hb2, hiff2⟩ := h23
  refine ⟨hl23.trans hl12, fun i h => hm23 i (hm12 i h), n1 ++ n2, ?_, ?_, ?_, ?_⟩
  · rw [ho23, ho12, List.append_assoc]
  · refine hnd1.append hnd2 ?_
    intro a ha1 ha2
    have h2true := (hiff1 a).mpr (Or.inr ha1)
    rw [(hb2 a ha2).2] at h2true
    exact Bool.false_ne_true h2true
  · intro i hi
    rcases List.mem_append.mp hi with h1 | h2
    · exact hb1 i h1
    · refine ⟨hl12 ▸ (hb2 i h2).1, ?_⟩
      cases hcase : s1.1.getD i true with
      | false => rfl
      | true =>
        have := hm12 i hcase
        rw [(hb2 i h2).2] at this
        exact absurd this Bool.false_ne_true
  · intro i
    rw [hiff2 i, hiff1 i, List.mem_append]
    tauto

/-- Unfolding of one step of `dfs` at positive fuel. -/
theorem dfs_succ {F : Type} (gates : List (Gate F)) (fuel gid : ℕ)
    (st : List Bool × List ℕ) :
    dfs gates (fuel + 1) gid st
      = if st.1.getD gid true = true then some st
        else
          match (match (gates.getD gid defaultGate).left with
                 | none => some (st.1.set gid true, st.2)
                 | some l => dfs gates fuel l (st.1.set gid true, st.2)) with
          | none => none
          | some st2 =>
            match (match (gates.getD gid defaultGate).right with
                   | none => some st2
                   | some rgt => dfs gates fuel rgt st2) with
            | none => none
            | some st3 => some (st3.1, st3.2 ++ [gid]) :=
  rfl

/-- Unfolding of one `dfs` step through `dfsChild`, in bind form. -/
theorem dfs_succ_child {F : Type} (gates : List (Gate F)) (fuel gid : ℕ)
    (st : List Bool × List ℕ) :
    dfs gates (fuel + 1) gid st
      = if st.1.getD gid true = true then some st
        else
          (dfsChild gates fuel (gates.getD gid defaultGate).left
              (st.1.set gid true, st.2)).bind
            (fun st2 => (dfsChild gates fuel (gates.getD gid defaultGate).right st2).bind
              (fun st3 => some (st3.1, st3.2 ++ [gid]))) := by
  rw [dfs_succ]
  by_cases hv : st.1.getD gid true = true
  · rw [if_pos hv, if_pos hv]
  · rw [if_neg hv, if_neg hv]
    cases hL : (gates.getD gid defaultGate).left with
    | none =>
      dsimp only [dfsChild, Option.bind]
      cases hR : (gates.getD gid defaultGate).right with
      | none => rfl
      | some rgt =>
        dsimp only [dfsChild, Option.bind]
        cases hd : dfs gates fuel rgt (st.1.set gid true, st.2) <;> rfl
    | some l =>
      dsimp only [dfsChild, Option.bind]
      cases hd : dfs gates fuel l (st.1.set gid true, st.2) with
      | none => rfl
      | some st2 =>
        dsimp only [Option.bind]
        cases hR : (gates.getD gid defaultGate).right with
        | none => rfl
        | some rgt =>
          dsimp only [dfsChild, Option.bind]
          cases hd2 : dfs gates fuel rgt st2 <;> rfl

/-- Every successful `dfs` call satisfies `DfsPost`, and leaves its own gate
visited. -/
theorem dfs_post {F : Type} (gates : List (Gate F)) :
    ∀ (fuel gid : ℕ) (st st' : List Bool × List ℕ),
      dfs gates fuel gid st = some st' →
      DfsPost st st' ∧ (gid < st.1.length → st'.1.getD gid true = true) := by
  intro fuel
  induction fuel with
  | zero =>
    intro gid st st' h
    simp [dfs] at h
  | succ fuel ih =>
    intro gid st st' h
    rw [dfs_succ] at h
    by_cases hv : st.1.getD gid true = true
    · rw [if_pos hv] at h
      obtain rfl := Option.some.inj h
      exact ⟨dfsPost_refl st, fun _ => hv⟩
    · rw [if_neg hv] at h
      have hvf : st.1.getD gid true = false := by
        revert hv
        cases st.1.getD gid true <;> simp
      have hgid : gid < st.1.length := lt_of_getD_false _ hvf
      rcases hL : (match (gates.getD gid defaultGate).left with
                   | none => some (st.1.set gid true, st.2)
                   | some l => dfs gates fuel l (st.1.set gid true, st.2)) with _ | st2
      · rw [hL] at h
        exact absurd h (by simp)
      · rw [hL] at h
        dsimp only at h
        have h12 : DfsPost (st.1.set gid true, st.2) st2 := by
          cases hleft : (gates.getD gid defaultGate).left with
          | none =>
            rw [hleft] at hL
            exact (Option.some.inj hL) ▸ dfsPost_refl _
          | some l =>
            rw [hleft] at hL
            exact (ih l _ st2 hL).1
        rcases hR : (match (gates.getD gid defaultGate).right with
                     | none => some st2
                     | some rgt => dfs gates fuel rgt st2) with _ | st3
        · rw [hR] at h
          exact absurd h (by simp)
        · rw [hR] at h
          dsimp only at h
          have h23 : DfsPost st2 st3 := by
            cases hright : (gates.getD gid defaultGate).right with
            | none =>
              rw [hright] at hR
              exact (Option.some.inj hR) ▸ dfsPost_refl _
            | some rgt =>
              rw [hright] at hR
              exact (ih rgt _ st3 hR).1
          obtain rfl := (Option.some.inj h).symm
          have h13 : DfsPost (st.1.set gid true, st.2) st3 := dfsPost_trans h12 h23
          obtain ⟨hl13, hm13, nw, ho13, hnd13, hb13, hiff13⟩ := h13
          have hmark_self : (st.1.set gid true).getD gid true = true :=
            getD_set_self_bool _ hgid _ _
          have hmark_ne : ∀ i, i ≠ gid → (st.1.set gid true).getD i true = st.1.getD i true :=
            fun i hi => getD_set_ne_bool _ (fun he => hi he.symm) _ _
          have hmark_mono : ∀ i, st.1.getD i true = true →
              (st.1.set gid true).getD i true = true := by
            intro i hi
            by_cases hig : i = gid
            · subst hig
              exact hmark_self
            · rw [hmark_ne i hig]
              exact hi
          have hgid_t : st3.1.getD gid true = true := hm13 gid hmark_self
          refine ⟨⟨?_, ?_, nw ++ [gid], ?_, ?_, ?_, ?_⟩, fun _ => hgid_t⟩
          · exact hl13.trans (List.length_set _ _ _)
          · exact fun i hi => hm13 i (hmark_mono i hi)
          · show st3.2 ++ [gid] = st.2 ++ (nw ++ [gid])
            rw [ho13, List.append_assoc]
          · refine hnd13.append (List.nodup_singleton _) ?_
            intro a ha hga
            rw [List.mem_singleton] at hga
            subst hga
            have := (hb13 a ha).2
            rw [hmark_self] at this
            exact Bool.noConfusion this
          · intro i hi
            rcases List.mem_append.mp hi with h1 | h1
            · have hb := hb13 i h1
              have hne : i ≠ gid := by
                intro he
                subst he
                rw [hmark_self] at hb
                exact Bool.noConfusion hb.2
              refine ⟨by simpa using hb.1, ?_⟩
              rw [← hmark_ne i hne]
              exact hb.2
            · rw [List.mem_singleton] at h1
              subst h1
              exact ⟨hgid, hvf⟩
          · intro i
            show st3.1.getD i true = true ↔ _
            rw [hiff13 i]
            by_cases hig : i = gid
            · subst hig
              constructor
              · intro _
                exact Or.inr (List.mem_append.mpr (Or.inr (List.mem_singleton.mpr rfl)))
              · intro _
                exact Or.inl hmark_self
            · rw [hmark_ne i hig]
              simp [List.mem_append, List.mem_singleton, hig]

theorem getD_replicate_false {n i : ℕ} (h : i < n) :
    (List.replicate n false).getD i true = false := by
  rw [List.getD_eq_getElem _ _ (by simpa using h)]
  simp

theorem unvisited_card_le (v : List Bool) : (unvisited v).card ≤ v.length := by
  refine le_trans (Finset.card_filter_le _ _) ?_
  simp

theorem mem_unvisited {v : List Bool} {gid : ℕ} (h : v.getD gid true = false) :
    gid ∈ unvisited v := by
  simp only [unvisited, Finset.mem_filter, Finset.mem_range]
  exact ⟨lt_of_getD_false v h, h⟩

theorem unvisited_set_erase (v : List Bool) {gid : ℕ} (h : v.getD gid true = false) :
    unvisited (v.set gid true) = (unvisited v).erase gid := by
  have hgid := lt_of_getD_false v h
  ext i
  simp only [unvisited, Finset.mem_filter, Finset.mem_erase, Finset.mem_range, List.length_set]
  by_cases hig : i = gid
  · subst hig
    constructor
    · rintro ⟨_, hf⟩
      rw [getD_set_self_bool v hgid] at hf
      exact absurd hf (by simp)
    · rintro ⟨hne, _⟩
      exact absurd rfl hne
  · rw [getD_set_ne_bool v (fun he => hig he.symm)]
    tauto

theorem unvisited_subset_of_post {s s' : List Bool × List ℕ} (h : DfsPost s s') :
    unvisited s'.1 ⊆ unvisited s.1 := by
  obtain ⟨hlen, hmono, _⟩ := h
  intro i hi
  simp only [unvisited, Finset.mem_filter, Finset.mem_range] at hi ⊢
  refine ⟨hlen ▸ hi.1, ?_⟩
  cases hc : s.1.getD i true with
  | false => rfl
  | true =>
    rw [hmono i hc] at hi
    exact absurd hi.2 (by simp)

/-- Termination: `dfs` returns `some` whenever the fuel exceeds the number of
unvisited gates, because a gate is marked visited before its predecessors
are traversed. -/
theorem dfs_some {F : Type} (gates : List (Gate F)) :
    ∀ (fuel gid : ℕ) (st : List Bool × List ℕ),
      (unvisited st.1).card < fuel →
      ∃ st', dfs gates fuel gid st = some st' := by
  intro fuel
  induction fuel with
  | zero =>
    intro gid st h
    exact absurd h (Nat.not_lt_zero _)
  | succ fuel ih =>
    intro gid st hcard
    rw [dfs_succ]
    by_cases hv : st.1.getD gid true = true
    · exact ⟨st, by rw [if_pos hv]⟩
    · have hvf : st.1.getD gid true = false := by
        revert hv
        cases st.1.getD gid true <;> simp
      have hpos : 0 < (unvisited st.1).card :=
        Finset.card_pos.mpr ⟨gid, mem_unvisited hvf⟩
      have hcard1 : (unvisited (st.1.set gid true)).card < fuel := by
        rw [unvisited_set_erase st.1 hvf, Finset.card_erase_of_mem (mem_unvisited hvf)]
        omega
      obtain ⟨st2, hst2⟩ :
          ∃ st2, (match (gates.getD gid defaultGate).left with
                  | none => some ((st.1.set gid true, st.2) : List Bool × List ℕ)
                  | some l => dfs gates fuel l (st.1.set gid true, st.2)) = some st2 := by
        cases hleft : (gates.getD gid defaultGate).left with
        | none => exact ⟨_, rfl⟩
        | some l => exact ih l _ hcard1
      have hpost12 : DfsPost (st.1.set gid true, st.2) st2 := by
        cases hleft : (gates.getD gid defaultGate).left with
        | none =>
          rw [hleft] at hst2
          exact (Option.some.inj hst2) ▸ dfsPost_refl _
        | some l =>
          rw [hleft] at hst2
          exact (dfs_post gates fuel l _ st2 hst2).1
      have hcard2 : (unvisited st2.1).card < fuel :=
        lt_of_le_of_lt (Finset.card_le_card (unvisited_subset_of_post hpost12)) hcard1
      obtain ⟨st3, hst3⟩ :
          ∃ st3, (match (gates.getD gid defaultGate).right with
                  | none => some st2
                  | some rgt => dfs gates fuel rgt st2) = some st3 := by
        cases hright : (gates.getD gid defaultGate).right with
        | none => exact ⟨_, rfl⟩
        | some rgt => exact ih rgt _ hcard2
      rw [if_neg hv, hst2]
      dsimp only
      rw [hst3]
      exact ⟨_, rfl⟩

/-- The top-level fold of `topological_order` keeps the visited/order
correspondence and visits every processed index. -/
theorem foldlM_dfs_inv {F : Type} (gates : List (Gate F)) :
    ∀ (l : List ℕ) (st : List Bool × List ℕ),
      st.1.length = gates.length →
      (∀ i, i < gates.length → (st.1.getD i true = true ↔ i ∈ st.2)) →
      st.2.Nodup → (∀ i ∈ st.2, i < gates.length) →
      ∃ st', List.foldlM (fun s i => dfs gates (gates.length + 1) i s) st l = some st' ∧
        st'.1.length = gates.length ∧
        (∀ i, i < gates.length → (st'.1.getD i true = true ↔ i ∈ st'.2)) ∧
        st'.2.Nodup ∧ (∀ i ∈ st'.2, i < gates.length) ∧
        (∀ i, st.1.getD i true = true → st'.1.getD i true = true) ∧
        (∀ i ∈ l, i < gates.length → st'.1.getD i true = true) := by
  intro l
  induction l with
  | nil =>
    intro st h1 h2 h3 h4
    exact ⟨st, rfl, h1, h2, h3, h4, fun _ h => h, by simp⟩
  | cons j rest ih =>
    intro st h1 h2 h3 h4
    have hcard : (unvisited st.1).card < gates.length + 1 :=
      Nat.lt_succ_of_le (h1 ▸ unvisited_card_le st.1)
    obtain ⟨stm, hstm⟩ := dfs_some gates (gates.length + 1) j st hcard
    obtain ⟨⟨hlen_m, hmono_m, nw, ho, hnd_nw, hb_nw, hiff_nw⟩, hvisit⟩ :=
      dfs_post gates (gates.length + 1) j st stm hstm
    have h1m : stm.1.length = gates.length := hlen_m.trans h1
    have h2m : ∀ i, i < gates.length → (stm.1.getD i true = true ↔ i ∈ stm.2) := by
      intro i hilen
      rw [hiff_nw i, ho, List.mem_append, h2 i hilen]
    have h3m : stm.2.Nodup := by
      rw [ho]
      refine h3.append hnd_nw ?_
      intro a ha1 ha2
      have ht := (h2 a (h1 ▸ (hb_nw a ha2).1)).mpr ha1
      rw [(hb_nw a ha2).2] at ht
      exact Bool.noConfusion ht
    have h4m : ∀ i ∈ stm.2, i < gates.length := by
      intro i hi
      rw [ho] at hi
      rcases List.mem_append.mp hi with hi | hi
      · exact h4 i hi
      · exact h1 ▸ (hb_nw i hi).1
    obtain ⟨st', hfold, hp1, hp2, hp3, hp4, hp5, hp6⟩ := ih stm h1m h2m h3m h4m
    refine ⟨st', ?_, hp1, hp2, hp3, hp4,
      fun i hi => hp5 i (hmono_m i hi), ?_⟩
    · show (dfs gates (gates.length + 1) j st).bind
          (fun s => List.foldlM (fun s i => dfs gates (gates.length + 1) i s) s rest) = some st'
      rw [hstm]
      exact hfold
    · intro i hi hilen
      rcases List.mem_cons.mp hi with hij | hir
      · subst hij
        exact hp5 i (hvisit (h1 ▸ hilen))
      · exact hp6 i hir hilen

/-- **C10**: `Circuit::topological_order` terminates and returns each gate id
exactly once for every circuit whose left/right references are in bounds —
even with forward references or cycles — because each gate is marked visited
before its predecessors are traversed.  (In the Rust code an out-of-bounds
reference would abort on the `visited` indexing; the hypothesis rules that
out, and the embedding's defaulting lookup is then exact.) -/
theorem claim_C10 {F : Type} (c : Circuit F)
    (hb : ∀ k, k < c.gates.length → ∀ p ∈ predsOf c.gates k, p < c.gates.length) :
    ∃ o, topological_order c = some o ∧ o.Perm (List.range c.gates.length) := by
  obtain ⟨st', hfold, hp1, hp2, hp3, hp4, hp5, hp6⟩ :=
    foldlM_dfs_inv c.gates (List.range c.gates.length)
      (List.replicate c.gates.length false, [])
      (by simp)
      (by
        intro i hi
        constructor
        · intro ht
          rw [getD_replicate_false hi] at ht
          exact absurd ht (by simp)
        · intro hmem
          exact absurd hmem (List.not_mem_nil i))
      List.nodup_nil
      (by simp)
  refine ⟨st'.2, ?_, ?_⟩
  · simp only [topological_order]
    rw [hfold]
    rfl
  · rw [List.perm_ext_iff_of_nodup hp3 (List.nodup_range _)]
    intro a
    constructor
    · intro ha
      exact List.mem_range.mpr (hp4 a ha)
    · intro ha
      have hlt := List.mem_range.mp ha
      refine (hp2 a hlt).mp (hp6 a ha ?_)
      simpa using hlt

/-- Witness for C10: a two-gate cycle (0 → 1 → 0) still terminates and
yields each id once. -/
theorem claim_C10_witness :
    ∃ o, topological_order ({ gates := [
        ⟨0, GateType.Add, some 1, none, none⟩,
        ⟨1, GateType.Add, some 0, none, none⟩] } : Circuit (ZMod 101)) = some o ∧
      o.Perm (List.range 2) :=
  claim_C10 _ (by decide)

theorem take_append_of_le {α : Type} (l1 l2 : List α) {k : ℕ} (h : k ≤ l1.length) :
    (l1 ++ l2).take k = l1.take k := by
  rw [List.take_append_eq_append_take, Nat.sub_eq_zero_of_le h]
  simp

theorem predClosed_nil {F : Type} (gates : List (Gate F)) : PredClosed gates [] := by
  intro k hk
  exact absurd hk (by simp)

theorem predClosed_append_single {F : Type} (gates : List (Gate F)) (order : List ℕ) (g : ℕ)
    (h : PredClosed gates order) (hpreds : ∀ p ∈ predsOf gates g, p ∈ order) :
    PredClosed gates (order ++ [g]) := by
  intro k hk p hp
  rw [List.length_append, List.length_singleton] at hk
  rw [List.get_eq_getElem] at hp
  rcases Nat.lt_or_ge k order.length with hlt | hge
  · rw [List.getElem_append_left hlt] at hp
    rw [take_append_of_le order [g] (Nat.le_of_lt hlt)]
    exact h k hlt p (by rw [List.get_eq_getElem]; exact hp)
  · have hkeq : k = order.length := by omega
    subst hkeq
    rw [List.getElem_append_right (le_refl _)] at hp
    simp only [Nat.sub_self, List.getElem_singleton] at hp
    rw [List.take_left]
    exact hpreds p hp

/-- When every predecessor id is strictly smaller than its gate's id, a `dfs`
call on `gid` from a consistent state succeeds, pushes `gid` after all its
predecessors, and preserves the order invariants. -/
theorem dfs_valid {F : Type} (gates : List (Gate F))
    (hvalid : ∀ k, k < gates.length → ∀ p ∈ predsOf gates k, p < k) :
    ∀ gid, gid < gates.length → ∀ fuel, gid < fuel → ∀ st : List Bool × List ℕ,
      DfsInv gates gid st → (st.1.getD gid true = true ↔ gid ∈ st.2) →
      ∃ st', dfs gates fuel gid st = some st' ∧
        DfsInv gates gid st' ∧
        (∃ new, st'.2 = st.2 ++ new ∧ ∀ i ∈ new, i ≤ gid) ∧
        (∀ i, gid < i → st'.1.getD i true = st.1.getD i true) ∧
        gid ∈ st'.2 ∧ st'.1.getD gid true = true ∧
        (∀ i, st.1.getD i true = true → st'.1.getD i true = true) := by
  intro gid
  induction gid using Nat.strong_induction_on with
  | _ gid IH =>
    intro hgidlen fuel hfuel st hinv hgiff
    obtain ⟨hlen, hbelow, hnd, hbnd, hpc⟩ := hinv
    cases fuel with
    | zero => exact absurd hfuel (Nat.not_lt_zero gid)
    | succ fuel =>
      rw [dfs_succ_child]
      by_cases hv : st.1.getD gid true = true
      · refine ⟨st, by rw [if_pos hv], ⟨hlen, hbelow, hnd, hbnd, hpc⟩,
          ⟨[], by simp, by simp⟩, fun i _ => rfl, hgiff.mp hv, hv, fun i h => h⟩
      · have hvf : st.1.getD gid true = false := by
          revert hv
          cases st.1.getD gid true <;> simp
        have hgnotin : gid ∉ st.2 := by
          intro hmem
          rw [hgiff.mpr hmem] at hvf
          exact Bool.noConfusion hvf
        -- running a child call keeps all invariants below gid
        have hchild : ∀ (o : Option ℕ), (∀ c, o = some c → c ∈ predsOf gates gid) →
            ∀ stA : List Bool × List ℕ,
            stA.1.length = gates.length →
            (∀ i, i < gid → (stA.1.getD i true = true ↔ i ∈ stA.2)) →
            stA.2.Nodup → (∀ i ∈ stA.2, i < gates.length) → PredClosed gates stA.2 →
            ∃ stB, dfsChild gates fuel o stA = some stB ∧
              stB.1.length = gates.length ∧
              (∀ i, i < gid → (stB.1.getD i true = true ↔ i ∈ stB.2)) ∧
              stB.2.Nodup ∧ (∀ i ∈ stB.2, i < gates.length) ∧ PredClosed gates stB.2 ∧
              (∃ new, stB.2 = stA.2 ++ new ∧ ∀ i ∈ new, i < gid) ∧
              (∀ i, gid ≤ i → stB.1.getD i true = stA.1.getD i true) ∧
              (∀ c, o = some c → c ∈ stB.2) ∧
              (∀ i, stA.1.getD i true = true → stB.1.getD i true = true) := by
          intro o ho stA hAlen hAbelow hAnd hAbnd hApc
          cases o with
          | none =>
            exact ⟨stA, rfl, hAlen, hAbelow, hAnd, hAbnd, hApc,
              ⟨[], by simp, by simp⟩, fun i _ => rfl,
              fun c hc => Option.noConfusion hc, fun i h => h⟩
          | some c =>
            have hcpred : c ∈ predsOf gates gid := ho c rfl
            have hclt : c < gid := hvalid gid hgidlen c hcpred
            have hclen : c < gates.length := lt_trans hclt hgidlen
            have hcfuel : c < fuel := by omega
            obtain ⟨stB, hB, ⟨hBlen, hBbelow, hBnd, hBbnd, hBpc⟩, ⟨new, hBo, hnewle⟩,
                hBuntouched, hBmem, hBself, hBmono⟩ :=
              IH c hclt hclen fuel hcfuel stA
                ⟨hAlen, fun i hi => hAbelow i (lt_trans hi hclt), hAnd, hAbnd, hApc⟩
                (hAbelow c hclt)
            refine ⟨stB, hB, hBlen, ?_, hBnd, hBbnd, hBpc,
              ⟨new, hBo, fun i hi => lt_of_le_of_lt (hnewle i hi) hclt⟩, ?_,
              fun c' hc' => by rw [← Option.some.inj hc']; exact hBmem,
              hBmono⟩
            · intro i hi
              rcases Nat.lt_trichotomy i c with hic | hic | hic
              · exact hBbelow i hic
              · subst hic
                exact iff_of_true hBself hBmem
              · rw [hBuntouched i hic, hBo, List.mem_append, hAbelow i hi]
                constructor
                · exact fun h => Or.inl h
                · rintro (h | h)
                  · exact h
                  · exact absurd (hnewle i h) (by omega)
            · intro i hi
              exact hBuntouched i (lt_of_lt_of_le hclt hi)
        -- st1: gid freshly marked
        have hst1below : ∀ i, i < gid →
            ((st.1.set gid true).getD i true = true ↔ i ∈ st.2) := by
          intro i hi
          rw [getD_set_ne_bool st.1 (by omega)]
          exact hbelow i hi
        have hst1self : (st.1.set gid true).getD gid true = true :=
          getD_set_self_bool st.1 (lt_of_getD_false st.1 hvf) _ _
        -- left child
        obtain ⟨st2, h2eq, h2len, h2below, h2nd, h2bnd, h2pc, ⟨newL, h2o, h2newlt⟩,
            h2untouched, h2mem, h2mono⟩ :=
          hchild (gates.getD gid defaultGate).left
            (fun c hc => by
              rw [predsOf]
              exact List.mem_append.mpr (Or.inl (by rw [hc]; simp)))
            (st.1.set gid true, st.2)
            (by simpa using hlen) hst1below hnd hbnd hpc
        -- right child
        obtain ⟨st3, h3eq, h3len, h3below, h3nd, h3bnd, h3pc, ⟨newR, h3o, h3newlt⟩,
            h3untouched, h3mem, h3mono⟩ :=
          hchild (gates.getD gid defaultGate).right
            (fun c hc => by
              rw [predsOf]
              exact List.mem_append.mpr (Or.inr (by rw [hc]; simp)))
            st2 h2len h2below h2nd h2bnd h2pc
        have hst3gid : st3.1.getD gid true = true := by
          rw [h3untouched gid (le_refl gid), h2untouched gid (le_refl gid)]
          exact hst1self
        have hst3untouched : ∀ i, gid < i → st3.1.getD i true = st.1.getD i true := by
          intro i hi
          rw [h3untouched i (Nat.le_of_lt hi), h2untouched i (Nat.le_of_lt hi),
            getD_set_ne_bool st.1 (by omega)]
        have hgid_notin3 : gid ∉ st3.2 := by
          rw [h3o, h2o]
          intro hmem
          rcases List.mem_append.mp hmem with hmem | hmem
          · rcases List.mem_append.mp hmem with hmem | hmem
            · exact hgnotin hmem
            · exact absurd (h2newlt gid hmem) (by omega)
          · exact absurd (h3newlt gid hmem) (by omega)
        refine ⟨(st3.1, st3.2 ++ [gid]), ?_, ?_, ?_, hst3untouched, ?_, hst3gid, ?_⟩
        · rw [if_neg hv, h2eq]
          dsimp only [Option.bind]
          rw [h3eq]
        · refine ⟨h3len, ?_, ?_, ?_, ?_⟩
          · intro i hi
            show st3.1.getD i true = true ↔ i ∈ st3.2 ++ [gid]
            rw [List.mem_append, List.mem_singleton, h3below i hi]
            constructor
            · exact fun h => Or.inl h
            · rintro (h | h)
              · exact h
              · omega
          · show (st3.2 ++ [gid]).Nodup
            exact h3nd.append (List.nodup_singleton _)
              (fun a ha hga => by
                rw [List.mem_singleton] at hga
                exact hgid_notin3 (hga ▸ ha))
          · intro i hi
            rcases List.mem_append.mp hi with hi | hi
            · exact h3bnd i hi
            · rw [List.mem_singleton] at hi
              exact hi ▸ hgidlen
          · refine predClosed_append_single gates st3.2 gid h3pc ?_
            intro p hp
            rw [predsOf] at hp
            rcases List.mem_append.mp hp with hp | hp
            · have : (gates.getD gid defaultGate).left = some p := by
                cases hl : (gates.getD gid defaultGate).left with
                | none => rw [hl] at hp; simp at hp
                | some l => rw [hl] at hp; simp at hp; rw [hp]
              have hpmem := h2mem p this
              rw [h3o]
              exact List.mem_append.mpr (Or.inl hpmem)
            · have : (gates.getD gid defaultGate).right = some p := by
                cases hr : (gates.getD gid defaultGate).right with
                | none => rw [hr] at hp; simp at hp
                | some rgt => rw [hr] at hp; simp at hp; rw [hp]
              exact h3mem p this
        · refine ⟨newL ++ newR ++ [gid], ?_, ?_⟩
          · show st3.2 ++ [gid] = st.2 ++ (newL ++ newR ++ [gid])
            rw [h3o, h2o]
            simp [List.append_assoc]
          · intro i hi
            rcases List.mem_append.mp hi with hi | hi
            · rcases List.mem_append.mp hi with hi | hi
              · exact Nat.le_of_lt (h2newlt i hi)
              · exact Nat.le_of_lt (h3newlt i hi)
            · rw [List.mem_singleton] at hi
              omega
        · show gid ∈ st3.2 ++ [gid]
          exact List.mem_append.mpr (Or.inr (List.mem_singleton.mpr rfl))
        · intro i hi
          refine h3mono i (h2mono i ?_)
          by_cases hig : i = gid
          · subst hig
            exact hst1self
          · rw [getD_set_ne_bool st.1 (fun he => hig he.symm)]
            exact hi

/-- The top-level loop of `topological_order` on a valid circuit, processing
indices `s, s+1, …` in order: every processed index ends up in the order
list, which stays duplicate-free, in-bounds and predecessor-closed. -/
theorem foldlM_dfs_valid {F : Type} (gates : List (Gate F))
    (hvalid : ∀ k, k < gates.length → ∀ p ∈ predsOf gates k, p < k) :
    ∀ (m s : ℕ), s + m = gates.length → ∀ st : List Bool × List ℕ,
      st.1.length = gates.length →
      (∀ j, j < s → st.1.getD j true = true) →
      (∀ j, s ≤ j → j < gates.length → st.1.getD j true = false) →
      (∀ j, j < s → j ∈ st.2) → (∀ j ∈ st.2, j < s) →
      st.2.Nodup → PredClosed gates st.2 →
      ∃ st', List.foldlM (fun s2 i => dfs gates (gates.length + 1) i s2) st
          (List.range' s m) = some st' ∧
        (∀ j, j < gates.length → j ∈ st'.2) ∧ (∀ j ∈ st'.2, j < gates.length) ∧
        st'.2.Nodup ∧ PredClosed gates st'.2 := by
  intro m
  induction m with
  | zero =>
    intro s hsm st h1 h2 h3 h4 h5 h6 h7
    refine ⟨st, rfl, ?_, ?_, h6, h7⟩
    · intro j hj
      exact h4 j (by omega)
    · intro j hj
      exact lt_of_lt_of_le (h5 j hj) (by omega)
  | succ m ih =>
    intro s hsm st h1 h2 h3 h4 h5 h6 h7
    have hslen : s < gates.length := by omega
    have hinv : DfsInv gates s st :=
      ⟨h1, fun i hi => iff_of_true (h2 i hi) (h4 i hi), h6,
        fun i hi => lt_of_lt_of_le (h5 i hi) (le_of_lt hslen), h7⟩
    have hsiff : st.1.getD s true = true ↔ s ∈ st.2 := by
      rw [h3 s (le_refl s) hslen]
      constructor
      · intro h
        exact absurd h (by simp)
      · intro hmem
        exact absurd (h5 s hmem) (by omega)
    obtain ⟨stm, heq, ⟨hmlen, hmbelow, hmnd, hmbnd, hmpc⟩, ⟨new, hmo, hmnew⟩,
        hmuntouched, hmmem, hmself, hmmono⟩ :=
      dfs_valid gates hvalid s hslen (gates.length + 1) (by omega) st hinv hsiff
    have g2 : ∀ j, j < s + 1 → stm.1.getD j true = true := by
      intro j hj
      rcases Nat.lt_or_ge j s with hjs | hjs
      · exact hmmono j (h2 j hjs)
      · have hjeq : j = s := by omega
        subst hjeq
        exact hmself
    have g3 : ∀ j, s + 1 ≤ j → j < gates.length → stm.1.getD j true = false := by
      intro j hj hjlen
      rw [hmuntouched j (by omega)]
      exact h3 j (by omega) hjlen
    have g4 : ∀ j, j < s + 1 → j ∈ stm.2 := by
      intro j hj
      rcases Nat.lt_or_ge j s with hjs | hjs
      · rw [hmo]
        exact List.mem_append.mpr (Or.inl (h4 j hjs))
      · have hjeq : j = s := by omega
        subst hjeq
        exact hmmem
    have g5 : ∀ j ∈ stm.2, j < s + 1 := by
      intro j hj
      rw [hmo] at hj
      rcases List.mem_append.mp hj with hj | hj
      · exact lt_of_lt_of_le (h5 j hj) (by omega)
      · exact Nat.lt_succ_of_le (hmnew j hj)
    obtain ⟨st', hfold, hc1, hc2, hc3, hc4⟩ :=
      ih (s + 1) (by omega) stm hmlen g2 g3 g4 g5 hmnd hmpc
    refine ⟨st', ?_, hc1, hc2, hc3, hc4⟩
    rw [List.range'_succ]
    show (dfs gates (gates.length + 1) s st).bind
        (fun s2 => List.foldlM (fun s2 i => dfs gates (gates.length + 1) i s2) s2
          (List.range' (s + 1) m)) = some st'
    rw [heq]
    exact hfold

/-- **C8**: on a circuit whose gates reference only strictly smaller ids,
`Circuit::topological_order` returns every wire id `0..len` exactly once
(a permutation of `range len`), in an order where each gate's predecessors
appear strictly before the gate itself. -/
theorem claim_C8 {F : Type} (c : Circuit F)
    (hvalid : ∀ k, k < c.gates.length → ∀ p ∈ predsOf c.gates k, p < k) :
    ∃ o, topological_order c = some o ∧ o.Perm (List.range c.gates.length) ∧
      PredClosed c.gates o := by
  obtain ⟨st', hfold, hc1, hc2, hc3, hc4⟩ :=
    foldlM_dfs_valid c.gates hvalid c.gates.length 0 (by omega)
      (List.replicate c.gates.length false, [])
      (by simp)
      (fun j hj => absurd hj (Nat.not_lt_zero j))
      (fun j _ hjlen => getD_replicate_false hjlen)
      (fun j hj => absurd hj (Nat.not_lt_zero j))
      (fun j hj => absurd hj (List.not_mem_nil j))
      List.nodup_nil
      (predClosed_nil c.gates)
  refine ⟨st'.2, ?_, ?_, hc4⟩
  · simp only [topological_order]
    rw [List.range_eq_range', hfold]
    rfl
  · rw [List.perm_ext_iff_of_nodup hc3 (List.nodup_range _)]
    intro a
    constructor
    · intro ha
      exact List.mem_range.mpr (hc2 a ha)
    · intro ha
      exact hc1 a (List.mem_range.mp ha)

/-- Witness for C8: a diamond circuit (two inputs, an addition, then a
multiplication re-using wires 2 and 0). -/
theorem claim_C8_witness :
    ∃ o, topological_order ({ gates := [
        ⟨0, GateType.Input, none, none, some 0⟩,
        ⟨1, GateType.Input, none, none, some 1⟩,
        ⟨2, GateType.Add, some 0, some 1, none⟩,
        ⟨3, GateType.Mul, some 2, some 0, none⟩] } : Circuit (ZMod 101)) = some o ∧
      o.Perm (List.range 4) ∧
      PredClosed ({ gates := [
        ⟨0, GateType.Input, none, none, some 0⟩,
        ⟨1, GateType.Input, none, none, some 1⟩,
        ⟨2, GateType.Add, some 0, some 1, none⟩,
        ⟨3, GateType.Mul, some 2, some 0, none⟩] } : Circuit (ZMod 101)).gates o :=
  claim_C8 _ (by decide)

end BGW
